import Mathlib

/-!
Verification development for the `protobuf-parser` crate.

The data model (`Syntax`, `Rule`, `FieldType`, `Field`, `Message`, …) and the
public entry point `FileDescriptor.parse` are translated from `src/lib.rs`.
The dependency walker (`ParserState`, `process_file`, `parse_with_dependencies`)
is translated from `src/parser_with_dependencies.rs`.  The grammar module
(`src/parser.rs`, declared as `mod parser` in `lib.rs`) is not part of the
sources; the lexer and recursive-descent parser below are modelled from the
specification (§4 of the spec document), as marked on each definition.
-/

namespace Protobuf

/-- Protobuf syntax tag (lib.rs `enum Syntax`): `Proto2` or `Proto3`.
The Rust field named after the keyword is called `syntax_` here. -/
inductive Syntax : Type where
  | Proto2
  | Proto3
deriving DecidableEq, Repr

/-- lib.rs `impl Default for Syntax`: the default is `Proto2`. -/
def Syntax.default : Syntax := Syntax.Proto2

/-- A field rule (lib.rs `enum Rule`). -/
inductive Rule : Type where
  | Optional
  | Repeated
  | Required
deriving DecidableEq, Repr

mutual
/-- Protobuf supported field types (lib.rs `enum FieldType`).  `Map` holds the
boxed pair of key and value types; `Group` holds the group's inline fields. -/
inductive FieldType : Type where
  | Int32
  | Int64
  | Uint32
  | Uint64
  | Sint32
  | Sint64
  | Bool
  | Fixed64
  | Sfixed64
  | Double
  | String
  | Bytes
  | Fixed32
  | Sfixed32
  | Float
  | MessageOrEnum (name : String)
  | Map (key : FieldType) (value : FieldType)
  | Group (fields : List Field)

/-- A protobuf field (lib.rs `struct Field`): name, rule, type, tag number,
optional default value, optional packed flag, deprecated flag. -/
inductive Field : Type where
  | mk (name : String) (rule : Rule) (typ : FieldType) (number : Int)
      (default : Option String) (packed : Option Bool) (deprecated : Bool)
end

/-- Field name projection. -/
def Field.name : Field → String
  | .mk n _ _ _ _ _ _ => n

/-- Field rule projection. -/
def Field.rule : Field → Rule
  | .mk _ r _ _ _ _ _ => r

/-- Field type projection. -/
def Field.typ : Field → FieldType
  | .mk _ _ t _ _ _ _ => t

/-- Field tag-number projection. -/
def Field.number : Field → Int
  | .mk _ _ _ n _ _ _ => n

/-- Field default-value projection. -/
def Field.default : Field → Option String
  | .mk _ _ _ _ d _ _ => d

/-- Whether a field type is the `Map` variant. -/
def isMapType : FieldType → Bool
  | .Map _ _ => true
  | _ => false

/-- Extension range / reserved range (lib.rs `struct FieldNumberRange`):
a closed interval.  `from` and `to` are Lean keywords, hence `from'`/`to'`. -/
structure FieldNumberRange : Type where
  from' : Int
  to' : Int
deriving DecidableEq, Repr

/-- A protobuf enumeration value (lib.rs `struct EnumValue`). -/
structure EnumValue : Type where
  name : String
  number : Int
deriving DecidableEq, Repr

/-- A protobuf enumeration (lib.rs `struct Enumeration`). -/
structure Enumeration : Type where
  name : String
  values : List EnumValue
deriving DecidableEq, Repr

/-- A OneOf (lib.rs `struct OneOf`): name and fields. -/
structure OneOf : Type where
  name : String
  fields : List Field

/-- A protobuf message (lib.rs `struct Message`): name, fields, oneofs,
reserved number ranges, reserved names, nested messages, nested enums.
Recursive through `messages`, hence an inductive with explicit projections. -/
inductive Message : Type where
  | mk (name : String) (fields : List Field) (oneofs : List OneOf)
      (reserved_nums : List FieldNumberRange) (reserved_names : List String)
      (messages : List Message) (enums : List Enumeration)

/-- Message name projection. -/
def Message.name : Message → String
  | .mk n _ _ _ _ _ _ => n

/-- Message fields projection. -/
def Message.fields : Message → List Field
  | .mk _ f _ _ _ _ _ => f

/-- Message oneofs projection. -/
def Message.oneofs : Message → List OneOf
  | .mk _ _ o _ _ _ _ => o

/-- Message reserved-ranges projection. -/
def Message.reserved_nums : Message → List FieldNumberRange
  | .mk _ _ _ r _ _ _ => r

/-- Message reserved-names projection. -/
def Message.reserved_names : Message → List String
  | .mk _ _ _ _ r _ _ => r

/-- Nested-messages projection. -/
def Message.messages : Message → List Message
  | .mk _ _ _ _ _ m _ => m

/-- Nested-enums projection. -/
def Message.enums : Message → List Enumeration
  | .mk _ _ _ _ _ _ e => e

/-- The empty message with a given name (`Message::default()` with the name
filled in, as the parser builds it). -/
def Message.empty (name : String) : Message :=
  .mk name [] [] [] [] [] []

/-- Append a field to a message. -/
def Message.addField : Message → Field → Message
  | .mk n f o rn rs m e, fld => .mk n (f ++ [fld]) o rn rs m e

/-- Append a oneof to a message. -/
def Message.addOneOf : Message → OneOf → Message
  | .mk n f o rn rs m e, oo => .mk n f (o ++ [oo]) rn rs m e

/-- Append reserved number ranges to a message. -/
def Message.addReservedNums : Message → List FieldNumberRange → Message
  | .mk n f o rn rs m e, rs' => .mk n f o (rn ++ rs') rs m e

/-- Append reserved names to a message. -/
def Message.addReservedNames : Message → List String → Message
  | .mk n f o rn rs m e, ns => .mk n f o rn (rs ++ ns) m e

/-- Append a nested message to a message. -/
def Message.addMessage : Message → Message → Message
  | .mk n f o rn rs m e, m' => .mk n f o rn rs (m ++ [m']) e

/-- Append a nested enum to a message. -/
def Message.addEnum : Message → Enumeration → Message
  | .mk n f o rn rs m e, en => .mk n f o rn rs m (e ++ [en])

/-- lib.rs `struct Extension`: the extended type name and one extension field. -/
structure Extension : Type where
  extendee : String
  field : Field

/-- A file descriptor representing a whole .proto file
(lib.rs `struct FileDescriptor`).  The Rust field named after the `syntax`
keyword is called `syntax_` here. -/
structure FileDescriptor : Type where
  import_paths : List String
  package : String
  syntax_ : Syntax
  messages : List Message
  enums : List Enumeration
  extensions : List Extension

/-- lib.rs `#[derive(Default)]` for `FileDescriptor`: empty lists, empty
package, `Syntax::Proto2`. -/
def FileDescriptor.default : FileDescriptor :=
  ⟨[], "", Syntax.default, [], [], []⟩

mutual
/-- A message together with all its transitively nested messages. -/
def Message.allMsgs : Message → List Message
  | .mk n f o rn rs m e => .mk n f o rn rs m e :: allMsgsList m

/-- All messages appearing in a list, with their transitively nested ones. -/
def allMsgsList : List Message → List Message
  | [] => []
  | m :: ms => m.allMsgs ++ allMsgsList ms
end

/-- All messages of a file descriptor, including nested ones. -/
def FileDescriptor.allMessages (fd : FileDescriptor) : List Message :=
  allMsgsList fd.messages

/-- Modelled from the spec: the error kinds of the core parser (§7 taxonomy);
the concrete `ParserError` enum lives in the absent `src/parser.rs`. -/
inductive ParserError : Type where
  | UnexpectedToken
  | UnexpectedEndOfInput
  | InvalidSyntaxDeclaration
  | DuplicateDeclaration
  | InvalidEscape
  | InvalidNumber
  | InvalidMapKey
  | UnterminatedComment
  | UnterminatedString
deriving DecidableEq, Repr

/-- Modelled from the spec: the `(line, column)` cursor of the lexer
(`Loc` in the absent `src/parser.rs`).  Stored zero-based; the projections
`line` and `col` are the 1-based values required by §6. -/
structure Loc : Type where
  line0 : Nat
  col0 : Nat
deriving DecidableEq, Repr

/-- 1-based line of a cursor. -/
def Loc.line (l : Loc) : Nat := l.line0 + 1

/-- 1-based column of a cursor. -/
def Loc.col (l : Loc) : Nat := l.col0 + 1

/-- Start-of-input cursor (line 1, column 1). -/
def Loc.start : Loc := ⟨0, 0⟩

/-- Advance the cursor over one consumed character. -/
def Loc.advance (l : Loc) (c : Char) : Loc :=
  if c = '\n' then ⟨l.line0 + 1, 0⟩ else ⟨l.line0, l.col0 + 1⟩

/-- Advance the cursor over a list of consumed characters. -/
def Loc.advanceList (l : Loc) (cs : List Char) : Loc := cs.foldl Loc.advance l

/-- lib.rs `struct ParserErrorWithLocation`: a parse error together with the
1-based line and column where parsing stopped. -/
structure ParserErrorWithLocation : Type where
  error : ParserError
  line : Nat
  col : Nat
deriving DecidableEq, Repr

/-- Modelled from the spec: the token alphabet of the lexical layer (§4.1):
identifiers, integer literals, floating-point literals (kept raw), string
literals, and single-character punctuation. -/
inductive Token : Type where
  | ident (s : String)
  | intLit (n : Nat)
  | floatLit (s : String)
  | strLit (s : String)
  | punct (c : Char)
deriving DecidableEq, Repr

/-- Identifier start characters: a letter or underscore (§4.1). -/
def isIdentStart (c : Char) : Bool := c.isAlpha || c = '_'

/-- Identifier continuation characters: letters, digits, underscores (§4.1). -/
def isIdentChar (c : Char) : Bool := c.isAlphanum || c = '_'

/-- Hexadecimal digit test. -/
def isHexDigitChar (c : Char) : Bool :=
  c.isDigit || ('a' ≤ c && c ≤ 'f') || ('A' ≤ c && c ≤ 'F')

/-- Octal digit test. -/
def isOctDigitChar (c : Char) : Bool := '0' ≤ c && c ≤ '7'

/-- Numeric value of a (decimal, octal or hex) digit character. -/
def hexDigitVal (c : Char) : Nat :=
  if c.isDigit then c.toNat - '0'.toNat
  else if 'a' ≤ c then c.toNat - 'a'.toNat + 10
  else c.toNat - 'A'.toNat + 10

/-- Value of a digit string under the given radix. -/
def digitsVal (base : Nat) (ds : List Char) : Nat :=
  ds.foldl (fun acc c => acc * base + hexDigitVal c) 0

/-- The single-character punctuation tokens of §4.1, plus `-` which §4.1 has
the parser consume as a separate token for signed numeric values. -/
def punctChars : List Char :=
  ['{', '}', '[', ']', '(', ')', ';', ',', '=', '<', '>', '.', '-']

/-- Simple C-style escapes of §4.1 string literals. -/
def escChar : Char → Option Char
  | 'a' => some (Char.ofNat 7)
  | 'b' => some (Char.ofNat 8)
  | 'f' => some (Char.ofNat 12)
  | 'n' => some '\n'
  | 'r' => some '\r'
  | 't' => some '\t'
  | 'v' => some (Char.ofNat 11)
  | '\\' => some '\\'
  | '\'' => some '\''
  | '"' => some '"'
  | '?' => some '?'
  | _ => none

/-- Take at most `n` leading characters satisfying `p`. -/
def takeUpTo : Nat → (Char → Bool) → List Char → List Char × List Char
  | 0, _, cs => ([], cs)
  | _ + 1, _, [] => ([], [])
  | n + 1, p, c :: cs =>
    if p c then
      let (a, b) := takeUpTo n p cs
      (c :: a, b)
    else ([], c :: cs)

/-- Scan to the end of a `/* ... */` block comment (non-nested, §4.1):
returns the consumed characters (closing `*/` included) and the rest, or
`none` when the comment is unterminated. -/
def findBlockEnd : List Char → Option (List Char × List Char)
  | [] => none
  | '*' :: '/' :: rest => some (['*', '/'], rest)
  | c :: rest => (findBlockEnd rest).map (fun p => (c :: p.1, p.2))

/-- Modelled from the spec: lexing of a floating-point exponent part
(`[eE][+-]?[0-9]+`, §4.1).  `pre` is what was already consumed. -/
def lexExponent (pre : List Char) (e : Char) (rest : List Char) :
    Except ParserError (Token × List Char × List Char) :=
  let sr : List Char × List Char :=
    match rest with
    | '+' :: r => (['+'], r)
    | '-' :: r => (['-'], r)
    | r => ([], r)
  let (ds, rest2) := sr.2.span Char.isDigit
  if ds.isEmpty then .error .InvalidNumber
  else
    let consumed := pre ++ e :: (sr.1 ++ ds)
    .ok (.floatLit (String.mk consumed), consumed, rest2)

/-- Modelled from the spec: lexing of decimal integers, octal integers
(leading `0`), and floating-point literals (§4.1).  Returns the token, the
consumed characters, and the rest. -/
def lexDecimal (cs : List Char) :
    Except ParserError (Token × List Char × List Char) :=
  let (ds, rest) := cs.span Char.isDigit
  match rest with
  | '.' :: rest1 =>
    let (ds2, rest2) := rest1.span Char.isDigit
    if ds2.isEmpty then .error .InvalidNumber
    else
      match rest2 with
      | e :: rest3 =>
        if e = 'e' ∨ e = 'E' then lexExponent (ds ++ '.' :: ds2) e rest3
        else .ok (.floatLit (String.mk (ds ++ '.' :: ds2)), ds ++ '.' :: ds2, rest2)
      | [] => .ok (.floatLit (String.mk (ds ++ '.' :: ds2)), ds ++ '.' :: ds2, rest2)
  | e :: rest1 =>
    if e = 'e' ∨ e = 'E' then lexExponent ds e rest1
    else
      if ds.head? = some '0' ∧ ds.length > 1 then
        if ds.all isOctDigitChar then .ok (.intLit (digitsVal 8 ds), ds, rest)
        else .error .InvalidNumber
      else .ok (.intLit (digitsVal 10 ds), ds, rest)
  | [] =>
    if ds.head? = some '0' ∧ ds.length > 1 then
      if ds.all isOctDigitChar then .ok (.intLit (digitsVal 8 ds), ds, rest)
      else .error .InvalidNumber
    else .ok (.intLit (digitsVal 10 ds), ds, rest)

/-- Modelled from the spec: lexing of one numeric literal (decimal, octal,
`0x`/`0X` hexadecimal, or float, §4.1).  `cs` starts with a digit. -/
def lexNumber (cs : List Char) :
    Except ParserError (Token × List Char × List Char) :=
  match cs with
  | '0' :: x :: rest =>
    if x = 'x' ∨ x = 'X' then
      let (hs, rest1) := rest.span isHexDigitChar
      if hs.isEmpty then .error .InvalidNumber
      else .ok (.intLit (digitsVal 16 hs), '0' :: x :: hs, rest1)
    else lexDecimal cs
  | _ => lexDecimal cs

/-- Modelled from the spec: lexing of the body of a string literal delimited
by `q`, with the C-style escapes of §4.1.  `l` is the cursor just after the
opening quote; returns the contents, the cursor after the closing quote, and
the remaining characters.  The fuel only bounds recursion depth. -/
def lexStr : Nat → Char → List Char → Loc → List Char →
    Except (ParserError × Loc) (String × Loc × List Char)
  | 0, _, _, l, _ => .error (.UnterminatedString, l)
  | fuel + 1, q, cs, l, acc =>
    match cs with
    | [] => .error (.UnterminatedString, l)
    | c :: rest =>
      if c = q then .ok (String.mk acc.reverse, l.advance c, rest)
      else if c = '\\' then
        match rest with
        | [] => .error (.InvalidEscape, l)
        | e :: rest1 =>
          let l1 := (l.advance c).advance e
          match escChar e with
          | some ch => lexStr fuel q rest1 l1 (ch :: acc)
          | none =>
            if e = 'x' then
              let (hs, rest2) := takeUpTo 2 isHexDigitChar rest1
              if hs.isEmpty then .error (.InvalidEscape, l)
              else lexStr fuel q rest2 (l1.advanceList hs)
                (Char.ofNat (digitsVal 16 hs) :: acc)
            else if isOctDigitChar e then
              let (os, rest2) := takeUpTo 2 isOctDigitChar rest1
              lexStr fuel q rest2 (l1.advanceList os)
                (Char.ofNat (digitsVal 8 (e :: os)) :: acc)
            else if e = 'u' then
              let (hs, rest2) := takeUpTo 4 isHexDigitChar rest1
              if hs.length = 4 then
                lexStr fuel q rest2 (l1.advanceList hs)
                  (Char.ofNat (digitsVal 16 hs) :: acc)
              else .error (.InvalidEscape, l)
            else if e = 'U' then
              let (hs, rest2) := takeUpTo 8 isHexDigitChar rest1
              if hs.length = 8 then
                lexStr fuel q rest2 (l1.advanceList hs)
                  (Char.ofNat (digitsVal 16 hs) :: acc)
              else .error (.InvalidEscape, l)
            else .error (.InvalidEscape, l)
      else lexStr fuel q rest (l.advance c) (c :: acc)

/-- Concatenate adjacent string-literal tokens (§4.1). -/
def mergeStrTokens : List (Token × Loc) → List (Token × Loc)
  | [] => []
  | (.strLit a, l) :: rest =>
    match mergeStrTokens rest with
    | (.strLit b, _) :: rest1 => (.strLit (a ++ b), l) :: rest1
    | r => (.strLit a, l) :: r
  | t :: rest => t :: mergeStrTokens rest

/-- Modelled from the spec: the main lexer loop (§4.1).  Skips whitespace and
comments, emits tokens tagged with the cursor at their first character, and
stops with the cursor at the offending character on error.  The fuel only
bounds recursion depth; `lexAll` supplies enough for any input. -/
def lexGo : Nat → List Char → Loc → List (Token × Loc) →
    Except (ParserError × Loc) (List (Token × Loc) × Loc)
  | 0, _, l, _ => .error (.UnexpectedEndOfInput, l)
  | fuel + 1, cs, l, acc =>
    match cs with
    | [] => .ok (acc.reverse, l)
    | c :: rest =>
      if c.isWhitespace then lexGo fuel rest (l.advance c) acc
      else if c = '/' then
        match rest with
        | '/' :: rest1 =>
          let (com, rest2) := rest1.span (fun ch => ch != '\n')
          lexGo fuel rest2 (l.advanceList ('/' :: '/' :: com)) acc
        | '*' :: rest1 =>
          match findBlockEnd rest1 with
          | none => .error (.UnterminatedComment, l)
          | some (com, rest2) => lexGo fuel rest2 (l.advanceList ('/' :: '*' :: com)) acc
        | _ => .error (.UnexpectedToken, l)
      else if isIdentStart c then
        let (ics, rest1) := (c :: rest).span isIdentChar
        lexGo fuel rest1 (l.advanceList ics) ((.ident (String.mk ics), l) :: acc)
      else if c.isDigit then
        match lexNumber (c :: rest) with
        | .error e => .error (e, l)
        | .ok (tok, consumed, rest1) =>
          lexGo fuel rest1 (l.advanceList consumed) ((tok, l) :: acc)
      else if c = '"' ∨ c = '\'' then
        match lexStr fuel c rest (l.advance c) [] with
        | .error e => .error e
        | .ok (s, l1, rest1) => lexGo fuel rest1 l1 ((.strLit s, l) :: acc)
      else if punctChars.contains c then
        lexGo fuel rest (l.advance c) ((.punct c, l) :: acc)
      else .error (.UnexpectedToken, l)

/-- Modelled from the spec: the whole lexical layer (§4.1), producing the
token list and the end-of-input cursor. -/
def lexAll (s : String) : Except (ParserError × Loc) (List (Token × Loc) × Loc) :=
  (lexGo (s.length + 1) s.data Loc.start []).map (fun r => (mergeStrTokens r.1, r.2))

/-- A token stream: tokens tagged with their source location. -/
abbrev TL : Type := List (Token × Loc)

/-- Result type of the syntactic layer: a value or an error kind with the
cursor where parsing stopped. -/
abbrev PRes (α : Type) : Type := Except (ParserError × Loc) α

/-- The cursor at the head of the stream, or the end-of-input cursor. -/
def hereLoc (endl : Loc) : TL → Loc
  | [] => endl
  | (_, l) :: _ => l

/-- Modelled from the spec: consume one expected punctuation token. -/
def expectPunct (endl : Loc) (c : Char) : TL → PRes TL
  | (.punct c', l) :: rest =>
    if c' = c then .ok rest else .error (.UnexpectedToken, l)
  | (_, l) :: _ => .error (.UnexpectedToken, l)
  | [] => .error (.UnexpectedEndOfInput, endl)

/-- Modelled from the spec: consume one identifier token (`ident`, §4.2). -/
def nextIdent (endl : Loc) : TL → PRes (String × TL)
  | (.ident s, _) :: rest => .ok (s, rest)
  | (_, l) :: _ => .error (.UnexpectedToken, l)
  | [] => .error (.UnexpectedEndOfInput, endl)

/-- Modelled from the spec: consume one string literal (`string_lit`, §4.2). -/
def nextStrLit (endl : Loc) : TL → PRes (String × TL)
  | (.strLit s, _) :: rest => .ok (s, rest)
  | (_, l) :: _ => .error (.UnexpectedToken, l)
  | [] => .error (.UnexpectedEndOfInput, endl)

/-- Modelled from the spec: consume a field tag number; a literal exceeding
the 32-bit signed range raises `InvalidNumber` (§7). -/
def nextFieldNumber (endl : Loc) : TL → PRes (Int × TL)
  | (.intLit n, l) :: rest =>
    if n ≤ 2147483647 then .ok ((n : Int), rest) else .error (.InvalidNumber, l)
  | (_, l) :: _ => .error (.UnexpectedToken, l)
  | [] => .error (.UnexpectedEndOfInput, endl)

/-- Modelled from the spec: `signed_int32` (§4.2): an optional leading `-`
token, then an integer literal, checked against the 32-bit signed range. -/
def signedInt32 (endl : Loc) : TL → PRes (Int × TL)
  | (.punct '-', _) :: (.intLit n, l) :: rest =>
    if n ≤ 2147483648 then .ok (-(n : Int), rest) else .error (.InvalidNumber, l)
  | (.punct '-', _) :: (_, l) :: _ => .error (.UnexpectedToken, l)
  | (.punct '-', _) :: [] => .error (.UnexpectedEndOfInput, endl)
  | (.intLit n, l) :: rest =>
    if n ≤ 2147483647 then .ok ((n : Int), rest) else .error (.InvalidNumber, l)
  | (_, l) :: _ => .error (.UnexpectedToken, l)
  | [] => .error (.UnexpectedEndOfInput, endl)

/-- Modelled from the spec: the `.ident .ident …` continuation of a dotted
qualified name (§4.2); `acc` is what was already read. -/
def dottedTail (endl : Loc) : String → TL → PRes (String × TL)
  | acc, (.punct '.', _) :: (.ident s, _) :: rest =>
    dottedTail endl (acc ++ "." ++ s) rest
  | _, (.punct '.', _) :: (_, l) :: _ => .error (.UnexpectedToken, l)
  | _, (.punct '.', _) :: [] => .error (.UnexpectedEndOfInput, endl)
  | acc, ts => .ok (acc, ts)

/-- Modelled from the spec: `qualified_ident` with optional leading dot
(§4.2). -/
def qualifiedIdent (endl : Loc) (ts : TL) : PRes (String × TL) :=
  match ts with
  | (.punct '.', _) :: (.ident s, _) :: rest => dottedTail endl ("." ++ s) rest
  | (.punct '.', _) :: (_, l) :: _ => .error (.UnexpectedToken, l)
  | (.punct '.', _) :: [] => .error (.UnexpectedEndOfInput, endl)
  | (.ident s, _) :: rest => dottedTail endl s rest
  | (_, l) :: _ => .error (.UnexpectedToken, l)
  | [] => .error (.UnexpectedEndOfInput, endl)

/-- The scalar protobuf types recognized by keyword (§3 `FieldType`). -/
def scalarType : String → Option FieldType
  | "int32" => some .Int32
  | "int64" => some .Int64
  | "uint32" => some .Uint32
  | "uint64" => some .Uint64
  | "sint32" => some .Sint32
  | "sint64" => some .Sint64
  | "bool" => some .Bool
  | "fixed64" => some .Fixed64
  | "sfixed64" => some .Sfixed64
  | "double" => some .Double
  | "string" => some .String
  | "bytes" => some .Bytes
  | "fixed32" => some .Fixed32
  | "sfixed32" => some .Sfixed32
  | "float" => some .Float
  | _ => none

/-- The scalars permitted as a map key: integer, bool or string (§3). -/
def isMapKeyType : FieldType → Bool
  | .Int32 => true
  | .Int64 => true
  | .Uint32 => true
  | .Uint64 => true
  | .Sint32 => true
  | .Sint64 => true
  | .Fixed32 => true
  | .Fixed64 => true
  | .Sfixed32 => true
  | .Sfixed64 => true
  | .Bool => true
  | .String => true
  | _ => false

/-- Modelled from the spec: the type production for non-map fields (§4.4):
a scalar keyword, or a qualified type name read as `MessageOrEnum`. -/
def parseFieldType (endl : Loc) (ts : TL) : PRes (FieldType × TL) :=
  match ts with
  | (.ident s, _) :: rest =>
    match scalarType s with
    | some t => .ok (t, rest)
    | none =>
      match qualifiedIdent endl ts with
      | .ok (n, rest1) => .ok (.MessageOrEnum n, rest1)
      | .error e => .error e
  | _ =>
    match qualifiedIdent endl ts with
    | .ok (n, rest1) => .ok (.MessageOrEnum n, rest1)
    | .error e => .error e

/-- Modelled from the spec: a "constant" value (§4.2): signed integer,
signed float, boolean, string, bare identifier, or brace-delimited aggregate
(accepted and discarded). -/
inductive Constant : Type where
  | intConst (i : Int)
  | floatConst (s : String)
  | boolConst (b : Bool)
  | strConst (s : String)
  | identConst (s : String)
  | aggregateConst
deriving DecidableEq, Repr

/-- A constant rendered as the uninterpreted default-value string (§3). -/
def Constant.asString : Constant → String
  | .intConst i => toString i
  | .floatConst s => s
  | .boolConst b => cond b "true" "false"
  | .strConst s => s
  | .identConst s => s
  | .aggregateConst => ""

/-- Modelled from the spec: brace-balanced consumption (§4.3 `service`
bodies, §4.2 aggregates).  Called after the opening brace, with `depth` the
number of still-open braces. -/
def skipBraces : Nat → Nat → Loc → TL → PRes TL
  | 0, _, endl, ts => .error (.UnexpectedEndOfInput, hereLoc endl ts)
  | fuel + 1, depth, endl, ts =>
    match ts with
    | [] => .error (.UnexpectedEndOfInput, endl)
    | (.punct '{', _) :: rest => skipBraces fuel (depth + 1) endl rest
    | (.punct '}', _) :: rest =>
      if depth ≤ 1 then .ok rest else skipBraces fuel (depth - 1) endl rest
    | _ :: rest => skipBraces fuel depth endl rest

/-- Modelled from the spec: the `constant` production (§4.2). -/
def parseConstant (fuel : Nat) (endl : Loc) (ts : TL) : PRes (Constant × TL) :=
  match ts with
  | (.punct '-', _) :: (.intLit n, _) :: rest => .ok (.intConst (-(n : Int)), rest)
  | (.punct '-', _) :: (.floatLit s, _) :: rest => .ok (.floatConst ("-" ++ s), rest)
  | (.punct '-', _) :: (_, l) :: _ => .error (.UnexpectedToken, l)
  | (.punct '-', _) :: [] => .error (.UnexpectedEndOfInput, endl)
  | (.intLit n, _) :: rest => .ok (.intConst (n : Int), rest)
  | (.floatLit s, _) :: rest => .ok (.floatConst s, rest)
  | (.strLit s, _) :: rest => .ok (.strConst s, rest)
  | (.ident "true", _) :: rest => .ok (.boolConst true, rest)
  | (.ident "false", _) :: rest => .ok (.boolConst false, rest)
  | (.ident s, _) :: rest => .ok (.identConst s, rest)
  | (.punct '{', _) :: rest =>
    match skipBraces fuel 1 endl rest with
    | .ok rest1 => .ok (.aggregateConst, rest1)
    | .error e => .error e
  | (_, l) :: _ => .error (.UnexpectedToken, l)
  | [] => .error (.UnexpectedEndOfInput, endl)

/-- Modelled from the spec: an option name, a possibly parenthesized
qualified identifier with a dotted tail (custom options are accepted and
discarded, §4.2). -/
def parseOptionName (endl : Loc) (ts : TL) : PRes (String × TL) :=
  match ts with
  | (.punct '(', _) :: rest =>
    match qualifiedIdent endl rest with
    | .error e => .error e
    | .ok (n, rest1) =>
      match expectPunct endl ')' rest1 with
      | .error e => .error e
      | .ok rest2 => dottedTail endl ("(" ++ n ++ ")") rest2
  | _ => qualifiedIdent endl ts

/-- The recognized field options (§3): optional default value, optional
packed flag, deprecated flag.  Other options are parsed and discarded. -/
structure FieldOpts : Type where
  default : Option String
  packed : Option Bool
  deprecated : Bool
deriving DecidableEq, Repr

/-- No options: the state before any option entry is read. -/
def FieldOpts.init : FieldOpts := ⟨none, none, false⟩

/-- Modelled from the spec: one entry of a field option list (§4.4):
`default = const` (Proto2 only), `packed = bool`, `deprecated = bool`,
anything else accepted and discarded. -/
def optionEntry (fuel : Nat) (syn : Syntax) (endl : Loc) (opts : FieldOpts)
    (ts : TL) : PRes (FieldOpts × TL) :=
  let l0 := hereLoc endl ts
  match parseOptionName endl ts with
  | .error e => .error e
  | .ok (name, ts1) =>
    match expectPunct endl '=' ts1 with
    | .error e => .error e
    | .ok ts2 =>
      match parseConstant fuel endl ts2 with
      | .error e => .error e
      | .ok (c, ts3) =>
        if name = "default" then
          if syn = .Proto3 then .error (.UnexpectedToken, l0)
          else .ok ({ opts with default := some c.asString }, ts3)
        else if name = "packed" then
          match c with
          | .boolConst b => .ok ({ opts with packed := some b }, ts3)
          | _ => .error (.UnexpectedToken, l0)
        else if name = "deprecated" then
          match c with
          | .boolConst b => .ok ({ opts with deprecated := b }, ts3)
          | _ => .error (.UnexpectedToken, l0)
        else .ok (opts, ts3)

/-- Modelled from the spec: the comma-separated option list between `[` and
`]` (§4.4), called after the opening bracket. -/
def optionListLoop : Nat → Syntax → Loc → FieldOpts → TL → PRes (FieldOpts × TL)
  | 0, _, endl, _, ts => .error (.UnexpectedEndOfInput, hereLoc endl ts)
  | fuel + 1, syn, endl, opts, ts =>
    match optionEntry fuel syn endl opts ts with
    | .error e => .error e
    | .ok (opts1, ts1) =>
      match ts1 with
      | (.punct ',', _) :: rest => optionListLoop fuel syn endl opts1 rest
      | (.punct ']', _) :: rest => .ok (opts1, rest)
      | (_, l) :: _ => .error (.UnexpectedToken, l)
      | [] => .error (.UnexpectedEndOfInput, endl)

/-- Modelled from the spec: an optional bracketed option list (§4.4). -/
def parseFieldOptsOpt (fuel : Nat) (syn : Syntax) (endl : Loc) (ts : TL) :
    PRes (FieldOpts × TL) :=
  match ts with
  | (.punct '[', _) :: rest => optionListLoop fuel syn endl .init rest
  | _ => .ok (.init, ts)

/-- Modelled from the spec: an `option name = value ;` statement, accepted
and discarded (§4.3, §4.4, §4.5); called after the `option` keyword. -/
def optionStatement (fuel : Nat) (endl : Loc) (ts : TL) : PRes TL :=
  match parseOptionName endl ts with
  | .error e => .error e
  | .ok (_, ts1) =>
    match expectPunct endl '=' ts1 with
    | .error e => .error e
    | .ok ts2 =>
      match parseConstant fuel endl ts2 with
      | .error e => .error e
      | .ok (_, ts3) => expectPunct endl ';' ts3

/-- Modelled from the spec: the tail of a field after its rule and type are
known (§4.4): `name = number [ options ] ;`. -/
def parseFieldTail (fuel : Nat) (syn : Syntax) (endl : Loc) (rule : Rule)
    (typ : FieldType) (ts : TL) : PRes (Field × TL) :=
  match nextIdent endl ts with
  | .error e => .error e
  | .ok (name, ts1) =>
    match expectPunct endl '=' ts1 with
    | .error e => .error e
    | .ok ts2 =>
      match nextFieldNumber endl ts2 with
      | .error e => .error e
      | .ok (num, ts3) =>
        match parseFieldOptsOpt fuel syn endl ts3 with
        | .error e => .error e
        | .ok (opts, ts4) =>
          match expectPunct endl ';' ts4 with
          | .error e => .error e
          | .ok ts5 =>
            .ok (.mk name rule typ num opts.default opts.packed opts.deprecated, ts5)

/-- Modelled from the spec: a `map<K, V>` field (§4.4), called after the
`map` keyword; the rule must be absent, the key must be a permitted scalar
(`InvalidMapKey` otherwise), and the field surfaces as `Repeated` with a
`Map` type. -/
def parseMapField (fuel : Nat) (syn : Syntax) (endl : Loc) (ts : TL) :
    PRes (Field × TL) :=
  match expectPunct endl '<' ts with
  | .error e => .error e
  | .ok ts1 =>
    let lk := hereLoc endl ts1
    match parseFieldType endl ts1 with
    | .error e => .error e
    | .ok (kt, ts2) =>
      if isMapKeyType kt = false then .error (.InvalidMapKey, lk)
      else
        match expectPunct endl ',' ts2 with
        | .error e => .error e
        | .ok ts3 =>
          match parseFieldType endl ts3 with
          | .error e => .error e
          | .ok (vt, ts4) =>
            match expectPunct endl '>' ts4 with
            | .error e => .error e
            | .ok ts5 => parseFieldTail fuel syn endl .Repeated (.Map kt vt) ts5

/-- Modelled from the spec: one item of a reserved/extensions number range
list (§4.4): `n`, `n to m`, or `n to max`; `max` is `i32::MAX` (§3).  A bare
number `n` yields the range `[n, n]`.  §8 requires every produced range to
satisfy `from' ≤ to'`, so a descending `n to m` is rejected at `m`. -/
def rangeItem (endl : Loc) (ts : TL) : PRes (FieldNumberRange × TL) :=
  match ts with
  | (.intLit n, l) :: rest =>
    if n ≤ 2147483647 then
      match rest with
      | (.ident "to", _) :: (.intLit m, l2) :: rest2 =>
        if m ≤ 2147483647 then
          if (n : Int) ≤ (m : Int) then .ok (⟨(n : Int), (m : Int)⟩, rest2)
          else .error (.UnexpectedToken, l2)
        else .error (.InvalidNumber, l2)
      | (.ident "to", _) :: (.ident "max", _) :: rest2 =>
        .ok (⟨(n : Int), 2147483647⟩, rest2)
      | (.ident "to", _) :: (_, l2) :: _ => .error (.UnexpectedToken, l2)
      | (.ident "to", _) :: [] => .error (.UnexpectedEndOfInput, endl)
      | _ => .ok (⟨(n : Int), (n : Int)⟩, rest)
    else .error (.InvalidNumber, l)
  | (_, l) :: _ => .error (.UnexpectedToken, l)
  | [] => .error (.UnexpectedEndOfInput, endl)

/-- Modelled from the spec: a comma-separated number range list terminated by
`;` (§4.4 `reserved` and `extensions`). -/
def rangeListLoop : Nat → Loc → List FieldNumberRange → TL →
    PRes (List FieldNumberRange × TL)
  | 0, endl, _, ts => .error (.UnexpectedEndOfInput, hereLoc endl ts)
  | fuel + 1, endl, acc, ts =>
    match rangeItem endl ts with
    | .error e => .error e
    | .ok (r, rest) =>
      match rest with
      | (.punct ',', _) :: rest1 => rangeListLoop fuel endl (acc ++ [r]) rest1
      | (.punct ';', _) :: rest1 => .ok (acc ++ [r], rest1)
      | (_, l) :: _ => .error (.UnexpectedToken, l)
      | [] => .error (.UnexpectedEndOfInput, endl)

/-- Modelled from the spec: a comma-separated quoted-name list terminated by
`;` (§4.4 `reserved` names). -/
def stringListLoop : Nat → Loc → List String → TL → PRes (List String × TL)
  | 0, endl, _, ts => .error (.UnexpectedEndOfInput, hereLoc endl ts)
  | fuel + 1, endl, acc, ts =>
    match nextStrLit endl ts with
    | .error e => .error e
    | .ok (s, rest) =>
      match rest with
      | (.punct ',', _) :: rest1 => stringListLoop fuel endl (acc ++ [s]) rest1
      | (.punct ';', _) :: rest1 => .ok (acc ++ [s], rest1)
      | (_, l) :: _ => .error (.UnexpectedToken, l)
      | [] => .error (.UnexpectedEndOfInput, endl)

/-- Modelled from the spec: the enum body grammar (§4.5): values
`Name = signed_int32 [options] ;`, `option` statements, `reserved`
statements (accepted, discarded) and empty statements, up to `}`. -/
def enumItems : Nat → Loc → String → List EnumValue → TL →
    PRes (Enumeration × TL)
  | 0, endl, _, _, ts => .error (.UnexpectedEndOfInput, hereLoc endl ts)
  | fuel + 1, endl, name, vals, ts =>
    match ts with
    | (.punct '}', _) :: rest => .ok (⟨name, vals⟩, rest)
    | (.punct ';', _) :: rest => enumItems fuel endl name vals rest
    | (.ident "option", _) :: rest =>
      match optionStatement fuel endl rest with
      | .error e => .error e
      | .ok rest1 => enumItems fuel endl name vals rest1
    | (.ident "reserved", _) :: rest =>
      match rest with
      | (.strLit _, _) :: _ =>
        match stringListLoop fuel endl [] rest with
        | .error e => .error e
        | .ok (_, rest1) => enumItems fuel endl name vals rest1
      | _ =>
        match rangeListLoop fuel endl [] rest with
        | .error e => .error e
        | .ok (_, rest1) => enumItems fuel endl name vals rest1
    | (.ident vname, _) :: rest =>
      match expectPunct endl '=' rest with
      | .error e => .error e
      | .ok rest1 =>
        match signedInt32 endl rest1 with
        | .error e => .error e
        | .ok (v, rest2) =>
          match parseFieldOptsOpt fuel .Proto2 endl rest2 with
          | .error e => .error e
          | .ok (_, rest3) =>
            match expectPunct endl ';' rest3 with
            | .error e => .error e
            | .ok rest4 => enumItems fuel endl name (vals ++ [⟨vname, v⟩]) rest4
    | (_, l) :: _ => .error (.UnexpectedToken, l)
    | [] => .error (.UnexpectedEndOfInput, endl)

/-- Modelled from the spec: an `enum Name { … }` declaration (§4.5), called
after the `enum` keyword. -/
def parseEnum (fuel : Nat) (endl : Loc) (ts : TL) : PRes (Enumeration × TL) :=
  match nextIdent endl ts with
  | .error e => .error e
  | .ok (name, ts1) =>
    match expectPunct endl '{' ts1 with
    | .error e => .error e
    | .ok ts2 => enumItems fuel endl name [] ts2

/-- The rule keywords (§3). -/
def ruleFromIdent : String → Option Rule
  | "optional" => some .Optional
  | "repeated" => some .Repeated
  | "required" => some .Required
  | _ => none

/-- Modelled from the spec: the optional `public`/`weak` modifier of an
`import` statement is parsed and discarded (§4.3). -/
def skipImportModifier : TL → TL
  | (.ident "public", _) :: r => r
  | (.ident "weak", _) :: r => r
  | r => r

mutual
/-- Modelled from the spec: one field with an optional leading rule keyword
(§4.4): the rule is required in Proto2, implicit `Optional` when absent in
Proto3, and `required` is disallowed in Proto3; `group` fields and `map`
fields (rule must be absent) are dispatched here. -/
def parseAnyField : Nat → Syntax → Loc → TL → PRes (Field × TL)
  | 0, _, endl, ts => .error (.UnexpectedEndOfInput, hereLoc endl ts)
  | fuel + 1, syn, endl, ts =>
    match ts with
    | (.ident "map", _) :: rest => parseMapField fuel syn endl rest
    | (.ident s, l) :: rest =>
      match ruleFromIdent s with
      | some rule =>
        if syn = .Proto3 ∧ rule = .Required then .error (.DuplicateDeclaration, l)
        else
          match rest with
          | (.ident "group", _) :: rest1 =>
            match nextIdent endl rest1 with
            | .error e => .error e
            | .ok (gname, rest2) =>
              match expectPunct endl '=' rest2 with
              | .error e => .error e
              | .ok rest3 =>
                match nextFieldNumber endl rest3 with
                | .error e => .error e
                | .ok (num, rest4) =>
                  match expectPunct endl '{' rest4 with
                  | .error e => .error e
                  | .ok rest5 =>
                    match groupItems fuel syn endl [] rest5 with
                    | .error e => .error e
                    | .ok (flds, rest6) =>
                      .ok (.mk gname rule (.Group flds) num none none false, rest6)
          | (.ident "map", l2) :: _ => .error (.UnexpectedToken, l2)
          | _ =>
            match parseFieldType endl rest with
            | .error e => .error e
            | .ok (typ, rest1) => parseFieldTail fuel syn endl rule typ rest1
      | none =>
        match syn with
        | .Proto2 => .error (.UnexpectedToken, l)
        | .Proto3 =>
          match parseFieldType endl ts with
          | .error e => .error e
          | .ok (typ, rest1) => parseFieldTail fuel syn endl .Optional typ rest1
    | (.punct '.', l) :: _ =>
      match syn with
      | .Proto2 => .error (.UnexpectedToken, l)
      | .Proto3 =>
        match parseFieldType endl ts with
        | .error e => .error e
        | .ok (typ, rest1) => parseFieldTail fuel syn endl .Optional typ rest1
    | (_, l) :: _ => .error (.UnexpectedToken, l)
    | [] => .error (.UnexpectedEndOfInput, endl)

/-- Modelled from the spec: the inline field list of a (deprecated) proto2
`group` (§4.4), up to the closing brace. -/
def groupItems : Nat → Syntax → Loc → List Field → TL → PRes (List Field × TL)
  | 0, _, endl, _, ts => .error (.UnexpectedEndOfInput, hereLoc endl ts)
  | fuel + 1, syn, endl, acc, ts =>
    match ts with
    | (.punct '}', _) :: rest => .ok (acc, rest)
    | (.punct ';', _) :: rest => groupItems fuel syn endl acc rest
    | _ =>
      match parseAnyField fuel syn endl ts with
      | .error e => .error e
      | .ok (f, rest) => groupItems fuel syn endl (acc ++ [f]) rest
end

/-- Modelled from the spec: the body of a `oneof name { field* }` (§4.4):
inner fields forbid rule keywords and maps, and their rule is `Optional`. -/
def oneofItems : Nat → Syntax → Loc → String → List Field → TL →
    PRes (OneOf × TL)
  | 0, _, endl, _, _, ts => .error (.UnexpectedEndOfInput, hereLoc endl ts)
  | fuel + 1, syn, endl, name, acc, ts =>
    match ts with
    | (.punct '}', _) :: rest => .ok (⟨name, acc⟩, rest)
    | (.punct ';', _) :: rest => oneofItems fuel syn endl name acc rest
    | (.ident "map", l) :: _ => .error (.UnexpectedToken, l)
    | (.ident s, l) :: _ =>
      match ruleFromIdent s with
      | some _ => .error (.DuplicateDeclaration, l)
      | none =>
        match parseFieldType endl ts with
        | .error e => .error e
        | .ok (typ, rest1) =>
          match parseFieldTail fuel syn endl .Optional typ rest1 with
          | .error e => .error e
          | .ok (f, rest2) => oneofItems fuel syn endl name (acc ++ [f]) rest2
    | _ =>
      match parseFieldType endl ts with
      | .error e => .error e
      | .ok (typ, rest1) =>
        match parseFieldTail fuel syn endl .Optional typ rest1 with
        | .error e => .error e
        | .ok (f, rest2) => oneofItems fuel syn endl name (acc ++ [f]) rest2

/-- Modelled from the spec: the body of an `extend QualifiedName { field* }`
(§4.3, §4.4): each inner field yields one `Extension` record. -/
def extendItems : Nat → Syntax → Loc → String → List Extension → TL →
    PRes (List Extension × TL)
  | 0, _, endl, _, _, ts => .error (.UnexpectedEndOfInput, hereLoc endl ts)
  | fuel + 1, syn, endl, extendee, acc, ts =>
    match ts with
    | (.punct '}', _) :: rest => .ok (acc, rest)
    | (.punct ';', _) :: rest => extendItems fuel syn endl extendee acc rest
    | _ =>
      match parseAnyField fuel syn endl ts with
      | .error e => .error e
      | .ok (f, rest) =>
        extendItems fuel syn endl extendee (acc ++ [⟨extendee, f⟩]) rest

mutual
/-- Modelled from the spec: the message body grammar (§4.4), folding the
statements between the braces into the message under construction; nested
`extend` blocks surface as file-level extensions collected in `exts`. -/
def messageItems : Nat → Syntax → Loc → Message → List Extension → TL →
    PRes ((Message × List Extension) × TL)
  | 0, _, endl, _, _, ts => .error (.UnexpectedEndOfInput, hereLoc endl ts)
  | fuel + 1, syn, endl, acc, exts, ts =>
    match ts with
    | (.punct '}', _) :: rest => .ok ((acc, exts), rest)
    | (.punct ';', _) :: rest => messageItems fuel syn endl acc exts rest
    | (.ident "message", _) :: rest =>
      match parseMessage fuel syn endl rest with
      | .error e => .error e
      | .ok ((m, es), rest1) =>
        messageItems fuel syn endl (acc.addMessage m) (exts ++ es) rest1
    | (.ident "enum", _) :: rest =>
      match parseEnum fuel endl rest with
      | .error e => .error e
      | .ok (en, rest1) => messageItems fuel syn endl (acc.addEnum en) exts rest1
    | (.ident "oneof", _) :: rest =>
      match nextIdent endl rest with
      | .error e => .error e
      | .ok (oname, rest1) =>
        match expectPunct endl '{' rest1 with
        | .error e => .error e
        | .ok rest2 =>
          match oneofItems fuel syn endl oname [] rest2 with
          | .error e => .error e
          | .ok (oo, rest3) => messageItems fuel syn endl (acc.addOneOf oo) exts rest3
    | (.ident "reserved", _) :: rest =>
      match rest with
      | (.strLit _, _) :: _ =>
        match stringListLoop fuel endl [] rest with
        | .error e => .error e
        | .ok (ns, rest1) =>
          messageItems fuel syn endl (acc.addReservedNames ns) exts rest1
      | _ =>
        match rangeListLoop fuel endl [] rest with
        | .error e => .error e
        | .ok (rs, rest1) =>
          messageItems fuel syn endl (acc.addReservedNums rs) exts rest1
    | (.ident "extensions", _) :: rest =>
      match rangeListLoop fuel endl [] rest with
      | .error e => .error e
      | .ok (_, rest1) => messageItems fuel syn endl acc exts rest1
    | (.ident "option", _) :: rest =>
      match optionStatement fuel endl rest with
      | .error e => .error e
      | .ok rest1 => messageItems fuel syn endl acc exts rest1
    | (.ident "extend", _) :: rest =>
      match qualifiedIdent endl rest with
      | .error e => .error e
      | .ok (extendee, rest1) =>
        match expectPunct endl '{' rest1 with
        | .error e => .error e
        | .ok rest2 =>
          match extendItems fuel syn endl extendee [] rest2 with
          | .error e => .error e
          | .ok (es, rest3) => messageItems fuel syn endl acc (exts ++ es) rest3
    | [] => .error (.UnexpectedEndOfInput, endl)
    | _ =>
      match parseAnyField fuel syn endl ts with
      | .error e => .error e
      | .ok (f, rest) => messageItems fuel syn endl (acc.addField f) exts rest

/-- Modelled from the spec: a `message Name { … }` declaration (§4.4),
called after the `message` keyword. -/
def parseMessage : Nat → Syntax → Loc → TL → PRes ((Message × List Extension) × TL)
  | 0, _, endl, ts => .error (.UnexpectedEndOfInput, hereLoc endl ts)
  | fuel + 1, syn, endl, ts =>
    match nextIdent endl ts with
    | .error e => .error e
    | .ok (name, ts1) =>
      match expectPunct endl '{' ts1 with
      | .error e => .error e
      | .ok ts2 => messageItems fuel syn endl (Message.empty name) [] ts2
end

/-- Modelled from the spec: the top-level loop (§4.3).  `first` records
whether no statement has been consumed yet: a `syntax` declaration is only
permitted as the first statement, and a later one raises
`DuplicateDeclaration`.  A second `package` also raises
`DuplicateDeclaration`; `service` bodies are skipped brace-balanced; end of
input completes the descriptor. -/
def topLoop : Nat → Loc → Bool → FileDescriptor → TL → PRes FileDescriptor
  | 0, endl, _, _, ts => .error (.UnexpectedEndOfInput, hereLoc endl ts)
  | fuel + 1, endl, first, fd, ts =>
    match ts with
    | [] => .ok fd
    | (.punct ';', _) :: rest => topLoop fuel endl false fd rest
    | (.ident "syntax", l) :: rest =>
      if first then
        match expectPunct endl '=' rest with
        | .error e => .error e
        | .ok rest1 =>
          let ls := hereLoc endl rest1
          match nextStrLit endl rest1 with
          | .error e => .error e
          | .ok (s, rest2) =>
            match expectPunct endl ';' rest2 with
            | .error e => .error e
            | .ok rest3 =>
              if s = "proto2" then
                topLoop fuel endl false { fd with syntax_ := .Proto2 } rest3
              else if s = "proto3" then
                topLoop fuel endl false { fd with syntax_ := .Proto3 } rest3
              else .error (.InvalidSyntaxDeclaration, ls)
      else .error (.DuplicateDeclaration, l)
    | (.ident "import", _) :: rest =>
      match nextStrLit endl (skipImportModifier rest) with
      | .error e => .error e
      | .ok (p, rest1) =>
        match expectPunct endl ';' rest1 with
        | .error e => .error e
        | .ok rest2 =>
          topLoop fuel endl false
            { fd with import_paths := fd.import_paths ++ [p] } rest2
    | (.ident "package", l) :: rest =>
      if fd.package = "" then
        match nextIdent endl rest with
        | .error e => .error e
        | .ok (s, rest1) =>
          match dottedTail endl s rest1 with
          | .error e => .error e
          | .ok (pname, rest2) =>
            match expectPunct endl ';' rest2 with
            | .error e => .error e
            | .ok rest3 => topLoop fuel endl false { fd with package := pname } rest3
      else .error (.DuplicateDeclaration, l)
    | (.ident "option", _) :: rest =>
      match optionStatement fuel endl rest with
      | .error e => .error e
      | .ok rest1 => topLoop fuel endl false fd rest1
    | (.ident "message", _) :: rest =>
      match parseMessage fuel fd.syntax_ endl rest with
      | .error e => .error e
      | .ok ((m, es), rest1) =>
        topLoop fuel endl false
          { fd with messages := fd.messages ++ [m],
                    extensions := fd.extensions ++ es } rest1
    | (.ident "enum", _) :: rest =>
      match parseEnum fuel endl rest with
      | .error e => .error e
      | .ok (en, rest1) =>
        topLoop fuel endl false { fd with enums := fd.enums ++ [en] } rest1
    | (.ident "extend", _) :: rest =>
      match qualifiedIdent endl rest with
      | .error e => .error e
      | .ok (extendee, rest1) =>
        match expectPunct endl '{' rest1 with
        | .error e => .error e
        | .ok rest2 =>
          match extendItems fuel fd.syntax_ endl extendee [] rest2 with
          | .error e => .error e
          | .ok (es, rest3) =>
            topLoop fuel endl false
              { fd with extensions := fd.extensions ++ es } rest3
    | (.ident "service", _) :: rest =>
      match nextIdent endl rest with
      | .error e => .error e
      | .ok (_, rest1) =>
        match expectPunct endl '{' rest1 with
        | .error e => .error e
        | .ok rest2 =>
          match skipBraces fuel 1 endl rest2 with
          | .error e => .error e
          | .ok rest3 => topLoop fuel endl false fd rest3
    | (_, l) :: _ => .error (.UnexpectedToken, l)

/-- Modelled from the spec: the syntactic layer (§4.2-§4.6), consuming the
whole token stream (`Parser::next_proto` of the absent `src/parser.rs`).
The fuel only bounds recursion depth and is ample for any stream. -/
def next_proto (toks : TL) (endl : Loc) : PRes FileDescriptor :=
  topLoop (4 * toks.length + 16) endl true .default toks

/-- lib.rs `FileDescriptor::parse`: run the parser on a character buffer and
return the descriptor, or the error together with the 1-based line and
column where the parser stopped. -/
def FileDescriptor.parse (file : String) : Except ParserErrorWithLocation FileDescriptor :=
  match lexAll file with
  | .error el => .error ⟨el.1, el.2.line, el.2.col⟩
  | .ok (toks, endl) =>
    match next_proto toks endl with
    | .error el => .error ⟨el.1, el.2.line, el.2.col⟩
    | .ok fd => .ok fd

/-! The dependency walker, translated from `src/parser_with_dependencies.rs`.
Filesystem paths are modelled as lists of components (OS-independent), and
the filesystem itself as an association list from paths to file contents;
`File::open` + `read_to_end` become a lookup in that list. -/

/-- A filesystem path: its components, in order. -/
abbrev FsPath : Type := List String

/-- The modelled filesystem: file paths associated with their contents. -/
abbrev FileSys : Type := List (FsPath × String)

/-- Read a file: the content at the first matching path, if any. -/
def FileSys.read (fs : FileSys) (p : FsPath) : Option String := fs.lookup p

/-- `relative_path_to_protobuf_path`: convert a relative OS path to a
protobuf path, joining components with forward slashes (on Windows the Rust
code replaces `\` by `/`; with paths as component lists that conversion is
this join). -/
def relative_path_to_protobuf_path (path : FsPath) : String :=
  String.intercalate "/" path

/-- Split characters at `/`, accumulating the current component reversed. -/
def splitSlashAux : List Char → List Char → List String
  | [], acc => [String.mk acc.reverse]
  | c :: rest, acc =>
    if c = '/' then String.mk acc.reverse :: splitSlashAux rest []
    else splitSlashAux rest (c :: acc)

/-- `Path::new(protobuf_path)`: a protobuf path read back as a relative
filesystem path ("protobuf path is a valid path on both Unix and Windows"),
splitting at the `/` separators. -/
def protobufPathComponents (pp : String) : FsPath := splitSlashAux pp.data []

/-- `struct FileDescriptorWithContext`: protobuf path, descriptor, and
whether the file was an input file. -/
structure FileDescriptorWithContext : Type where
  protobuf_path : String
  file_descriptor : FileDescriptor
  input : Bool

/-- `enum ParserWithDependenciesError`: io failure, other (string) failure,
or a parse failure (the `nom`-level error, carried here as the parser error
with location). -/
inductive ParserWithDependenciesError : Type where
  | Io
  | Other (msg : String)
  | Nom (e : ParserErrorWithLocation)

/-- Outcome channel of the modelled walker: a walker error, the Rust
`assert!(prev.is_none())` firing, or fuel exhaustion of the model (the Rust
code recurses without fuel). -/
inductive WalkError : Type where
  | err (e : ParserWithDependenciesError)
  | assertionFailed
  | outOfFuel

/-- Walker result type. -/
abbrev WRes (α : Type) : Type := Except WalkError α

/-- `struct ParserState`: the include path, the visited set and the parsed
map; the `HashSet` is modelled as a list of keys, the `HashMap` as an
association list in insertion order. -/
structure ParserState : Type where
  include_path : List FsPath
  visited : List String
  parsed : List (String × FileDescriptorWithContext)

/-- `ParserState::resolve_protobuf_path`: find the first include directory
under which the protobuf path exists; error if none does. -/
def resolve_protobuf_path (fs : FileSys) (st : ParserState)
    (protobuf_path : String) : WRes FsPath :=
  let rel := protobufPathComponents protobuf_path
  match st.include_path.find? (fun d => (fs.read (d ++ rel)).isSome) with
  | some d => .ok (d ++ rel)
  | none =>
    .error (.err (.Other
      ("protobuf include " ++ protobuf_path ++ " is not found in include path")))

/-- The `parsed.get_mut(protobuf_path)` update marking a previously parsed
file as input. -/
def markInput (parsed : List (String × FileDescriptorWithContext))
    (pp : String) : List (String × FileDescriptorWithContext) :=
  parsed.map (fun e => if e.1 = pp then (e.1, { e.2 with input := true }) else e)

mutual
/-- `ParserState::process_file`: if the protobuf path was already visited,
only flip its input flag when revisited as an input and return; otherwise
mark it visited, read and parse the file, process every import (the `for`
loop is `processImports`), and insert the descriptor into the parsed map,
where the Rust code asserts that no previous entry existed.  The fuel only
bounds the recursion depth of the model. -/
def process_file (fs : FileSys) (fuel : Nat) (protobuf_path : String)
    (fs_path : FsPath) (input : Bool) (st : ParserState) : WRes ParserState :=
  if protobuf_path ∈ st.visited then
    .ok (if input then { st with parsed := markInput st.parsed protobuf_path } else st)
  else
    match fs.read fs_path with
    | none => .error (.err .Io)
    | some content =>
      match FileDescriptor.parse content with
      | .error e => .error (.err (.Nom e))
      | .ok fd =>
        match fuel with
        | 0 => .error .outOfFuel
        | fuel' + 1 =>
          match processImports fs fuel' fd.import_paths
              { st with visited := protobuf_path :: st.visited } with
          | .error e => .error e
          | .ok st2 =>
            if st2.parsed.any (fun e => e.1 == protobuf_path) then
              .error .assertionFailed
            else
              .ok { st2 with
                parsed := st2.parsed ++
                  [(protobuf_path, ⟨protobuf_path, fd, input⟩)] }
termination_by (fuel, 0)

/-- The `for import_path in &file_descriptor.import_paths` loop of
`process_file`: resolve each import against the include path and process it
recursively, with `input = false`. -/
def processImports (fs : FileSys) (fuel : Nat) (imports : List String)
    (st : ParserState) : WRes ParserState :=
  match imports with
  | [] => .ok st
  | ip :: rest =>
    match resolve_protobuf_path fs st ip with
    | .error e => .error e
    | .ok import_fs_path =>
      match process_file fs fuel ip import_fs_path false st with
      | .error e => .error e
      | .ok st1 => processImports fs fuel rest st1
termination_by (fuel, imports.length + 1)
end

/-- `ParserState::process_input_file`: strip the first matching include
directory from the input path to obtain the protobuf path, and process the
file with `input = true`; error when the file is under no include
directory. -/
def firstStrip : List FsPath → FsPath → Option FsPath
  | [], _ => none
  | d :: rest, p => if d.isPrefixOf p then some (p.drop d.length) else firstStrip rest p

/-- `ParserState::process_input_file` (see `firstStrip` for the
`strip_prefix` iteration). -/
def process_input_file (fs : FileSys) (fuel : Nat) (fs_path : FsPath)
    (st : ParserState) : WRes ParserState :=
  match firstStrip st.include_path fs_path with
  | some relative_path =>
    process_file fs fuel (relative_path_to_protobuf_path relative_path) fs_path true st
  | none => .error (.err (.Other "file must reside in include path"))

/-- The `for file in files` loop of `parse_with_dependencies`. -/
def processInputFiles (fs : FileSys) (fuel : Nat) : List FsPath → ParserState →
    WRes ParserState
  | [], st => .ok st
  | f :: rest, st =>
    match process_input_file fs fuel f st with
    | .error e => .error e
    | .ok st1 => processInputFiles fs fuel rest st1

/-- `parse_with_dependencies`: parse the given files and all dependencies,
starting from an empty state, and return the parsed descriptors. -/
def parse_with_dependencies (fs : FileSys) (fuel : Nat)
    (include_path : List FsPath) (files : List FsPath) :
    WRes (List FileDescriptorWithContext) :=
  match processInputFiles fs fuel files ⟨include_path, [], []⟩ with
  | .error e => .error e
  | .ok st => .ok (st.parsed.map Prod.snd)

/-! Auxiliary predicates used by the statements below. -/

/-- Whether the head of a token stream is the identifier before a `syntax`
declaration; at top level only a `syntax` declaration can start with it. -/
def headIsSyntaxTok : TL → Bool
  | (.ident n, _) :: _ => n == "syntax"
  | _ => false

/-- Whether the character buffer opens with a `syntax` declaration: for a
file the parser accepts, this holds exactly when the file declares its
syntax (§4.3 permits the declaration only as the first statement). -/
def startsWithSyntaxDecl (s : String) : Bool :=
  match lexAll s with
  | .ok r => headIsSyntaxTok r.1
  | .error _ => false

/-- Whether a token stream continues with the range keyword `to`. -/
def headIsToTok : TL → Bool
  | (.ident n, _) :: _ => n == "to"
  | _ => false

/-- Every field of every oneof of the message has rule `Optional` and a
non-map type. -/
def oneofFieldsOk (m : Message) : Prop :=
  ∀ o ∈ m.oneofs, ∀ f ∈ o.fields, f.rule = .Optional ∧ isMapType f.typ = false

/-- Every reserved range of the message is ordered. -/
def rangesOk (m : Message) : Prop :=
  ∀ r ∈ m.reserved_nums, r.from' ≤ r.to'

/-- The structural invariants of a message and all its nested messages. -/
def msgOk (m : Message) : Prop := ∀ x ∈ m.allMsgs, oneofFieldsOk x ∧ rangesOk x

/-- The structural invariants over all messages of a descriptor. -/
def fdOk (fd : FileDescriptor) : Prop :=
  ∀ x ∈ allMsgsList fd.messages, oneofFieldsOk x ∧ rangesOk x

/-- The protobuf-path keys of the parsed map. -/
def pKeys (st : ParserState) : List String := st.parsed.map Prod.fst

/-- `p` is the canonical (include-relative, slash-joined) path of one of the
given input files. -/
def canonProp (incs : List FsPath) (files : List FsPath) (p : String) : Prop :=
  ∃ f ∈ files, ∃ rel, firstStrip incs f = some rel ∧
    p = relative_path_to_protobuf_path rel

/-- `p` occurs as an import path in some file of the filesystem that the
core parser accepts. -/
def importStringsProp (fs : FileSys) (p : String) : Prop :=
  ∃ q c fd, fs.read q = some c ∧ FileDescriptor.parse c = .ok fd ∧
    p ∈ fd.import_paths

/-- The walker-state invariant threaded through `process_file`: parsed keys
are visited and duplicate-free, the tracked input set `S` is visited, every
entry's flag reflects `S`, every entry's stored path equals its key, and
every key satisfies the provenance predicate `C`. -/
structure WInv (S : String → Prop) (C : String → Prop) (st : ParserState) : Prop where
  keysVisited : ∀ k ∈ pKeys st, k ∈ st.visited
  keysNodup : (pKeys st).Nodup
  sVisited : ∀ p, S p → p ∈ st.visited
  flags : ∀ e ∈ st.parsed, (e.2.input = true ↔ S e.1)
  keyMatch : ∀ e ∈ st.parsed, e.2.protobuf_path = e.1
  prov : ∀ e ∈ st.parsed, C e.1

/-- The provenance of the walker's keys: a canonical path of an input file,
or an import string of a parseable file of the filesystem. -/
def walkProv (fs : FileSys) (incs files : List FsPath) (p : String) : Prop :=
  canonProp incs files p ∨ importStringsProp fs p

/-- The induction conclusion about `process_file` at a given fuel: starting
from an invariant state with a provenanced path, the Rust assertion cannot
fire, and success preserves the invariant (the tracked input set gaining the
path when processed as input), grows the visited set, and only adds
previously unvisited keys. -/
def PFconcl (fs : FileSys) (C : String → Prop) (fuel : Nat) : Prop :=
  ∀ (pp : String) (fsp : FsPath) (inp : Bool) (st : ParserState)
    (S : String → Prop),
    WInv S C st → C pp →
    (process_file fs fuel pp fsp inp st ≠ .error .assertionFailed) ∧
    (∀ st', process_file fs fuel pp fsp inp st = .ok st' →
      WInv (fun q => S q ∨ (inp = true ∧ q = pp)) C st' ∧
      (∀ v ∈ st.visited, v ∈ st'.visited) ∧
      (∀ k ∈ pKeys st', k ∈ pKeys st ∨ k ∉ st.visited))

/-- The corresponding conclusion about the import loop. -/
def PIconcl (fs : FileSys) (C : String → Prop) (fuel : Nat) : Prop :=
  ∀ (imports : List String) (st : ParserState) (S : String → Prop),
    WInv S C st → (∀ ip ∈ imports, C ip) →
    (processImports fs fuel imports st ≠ .error .assertionFailed) ∧
    (∀ st', processImports fs fuel imports st = .ok st' →
      WInv S C st' ∧
      (∀ v ∈ st.visited, v ∈ st'.visited) ∧
      (∀ k ∈ pKeys st', k ∈ pKeys st ∨ k ∉ st.visited))

/-! Theorems. -/

/-- C1: the public entry point `FileDescriptor.parse` accepts a character
buffer and, for every input, returns either a complete `FileDescriptor` or a
structured parse error carrying a (1-based) line and column; being a total
function of the model, it returns nothing else and never panics. -/
theorem parse_total_with_location (s : String) :
    (∃ fd, FileDescriptor.parse s = .ok fd) ∨
      (∃ e, FileDescriptor.parse s = .error e ∧ 1 ≤ e.line ∧ 1 ≤ e.col) := by
  cases hl : lexAll s with
  | error el =>
    refine .inr ⟨⟨el.1, el.2.line, el.2.col⟩, ?_, ?_, ?_⟩
    · simp [FileDescriptor.parse, hl]
    · simp [Loc.line]
    · simp [Loc.col]
  | ok r =>
    obtain ⟨toks, endl⟩ := r
    cases hnp : next_proto toks endl with
    | error el =>
      refine .inr ⟨⟨el.1, el.2.line, el.2.col⟩, ?_, ?_, ?_⟩
      · simp [FileDescriptor.parse, hl, hnp]
      · simp [Loc.line]
      · simp [Loc.col]
    | ok fd => exact .inl ⟨fd, by simp [FileDescriptor.parse, hl, hnp]⟩

/-- C5: once a protobuf path is in the visited set, a later visit returns at
once with at most the input flag flipped: the result neither reads the
filesystem nor parses (it does not depend on the filesystem, the fuel or the
filesystem path, and the parsed map gains no entry). -/
theorem process_file_visited_skips (fs fs' : FileSys) (fuel fuel' : Nat)
    (pp : String) (fsp fsp' : FsPath) (inp : Bool) (st : ParserState)
    (h : pp ∈ st.visited) :
    process_file fs fuel pp fsp inp st =
        .ok (if inp then { st with parsed := markInput st.parsed pp } else st) ∧
      process_file fs fuel pp fsp inp st = process_file fs' fuel' pp fsp' inp st := by
  constructor
  · rw [process_file]; simp [h]
  · rw [process_file, process_file]; simp [h]

/-- Witness for C5: revisiting a visited path with no filesystem at all
still succeeds and leaves the state unchanged. -/
theorem process_file_visited_skips_witness :
    ("a.proto" ∈ (ParserState.mk [] ["a.proto"] []).visited) ∧
      process_file [] 0 "a.proto" [] false (ParserState.mk [] ["a.proto"] []) =
        .ok (ParserState.mk [] ["a.proto"] []) := by
  refine ⟨by simp, ?_⟩
  have h := process_file_visited_skips [] [] 0 0 "a.proto" [] [] false
    (ParserState.mk [] ["a.proto"] []) (by simp)
  simpa using h.1

/-- The import loop never changes the include path of the state. -/
theorem processImports_include_of (fs : FileSys) (fuel : Nat)
    (hpf : ∀ pp fsp inp st st', process_file fs fuel pp fsp inp st = .ok st' →
      st'.include_path = st.include_path) :
    ∀ (imports : List String) (st st' : ParserState),
      processImports fs fuel imports st = .ok st' →
      st'.include_path = st.include_path := by
  intro imports
  induction imports with
  | nil =>
    intro st st' h
    rw [processImports] at h
    injection h with h2
    rw [← h2]
  | cons ip rest ih =>
    intro st st' h
    rw [processImports] at h
    split at h
    · cases h
    · rename_i p hr
      split at h
      · cases h
      · rename_i st1 hp
        exact (ih st1 st' h).trans (hpf ip p false st st1 hp)

/-- `process_file` never changes the include path of the state. -/
theorem process_file_include_eq (fs : FileSys) :
    ∀ (fuel : Nat) (pp : String) (fsp : FsPath) (inp : Bool) (st st' : ParserState),
      process_file fs fuel pp fsp inp st = .ok st' →
      st'.include_path = st.include_path := by
  intro fuel
  induction fuel with
  | zero =>
    intro pp fsp inp st st' h
    rw [process_file] at h
    by_cases hv : pp ∈ st.visited
    · rw [if_pos hv] at h
      injection h with h2
      rw [← h2]
      cases inp <;> simp
    · rw [if_neg hv] at h
      split at h
      · cases h
      · split at h
        · cases h
        · cases h
  | succ f ih =>
    intro pp fsp inp st st' h
    rw [process_file] at h
    by_cases hv : pp ∈ st.visited
    · rw [if_pos hv] at h
      injection h with h2
      rw [← h2]
      cases inp <;> simp
    · rw [if_neg hv] at h
      split at h
      · cases h
      · split at h
        · cases h
        · split at h
          · cases h
          · rename_i fuel2 hfuel
            split at h
            · cases h
            · rename_i st2 hpi
              split at h
              · cases h
              · injection h with h2
                have hf : fuel2 = f := by omega
                rw [hf] at hpi
                have h3 := processImports_include_of fs f
                  (fun a b c d e => ih a b c d e) _ _ _ hpi
                rw [← h2]
                simpa using h3

/-- A successful `find?` returns the first element satisfying the
predicate: everything before it fails the predicate. -/
theorem find?_first_index {α : Type} (p : α → Bool) :
    ∀ (l : List α) (a : α), l.find? p = some a →
      ∃ i : Fin l.length, l.get i = a ∧ p a = true ∧
        ∀ j : Fin l.length, j.val < i.val → p (l.get j) = false := by
  intro l
  induction l with
  | nil => intro a h; simp at h
  | cons x xs ih =>
    intro a h
    by_cases hx : p x
    · rw [List.find?_cons_of_pos _ hx] at h
      injection h with h2
      refine ⟨⟨0, by simp⟩, by simpa using h2, h2 ▸ hx, ?_⟩
      intro j hj
      exact absurd hj (Nat.not_lt_zero _)
    · rw [List.find?_cons_of_neg _ hx] at h
      obtain ⟨i, hget, hp, hbefore⟩ := ih a h
      refine ⟨⟨i.val + 1, by simp⟩, by simpa using hget, hp, ?_⟩
      intro j hj
      match j with
      | ⟨0, _⟩ => simpa using hx
      | ⟨jv + 1, hjv⟩ =>
        have hr := hbefore ⟨jv, by simpa using hjv⟩ (by simpa using hj)
        simpa using hr

/-- C8: an import path is resolved by trying the include directories in
order: when no directory contains the file the walker fails with the
not-found error, and a successful resolution returns the join with the first
directory under which the file exists, every earlier directory lacking it. -/
theorem resolve_protobuf_path_first_match :
    (∀ (fs : FileSys) (st : ParserState) (pp : String),
        (∀ d ∈ st.include_path,
          fs.read (d ++ protobufPathComponents pp) = none) →
        resolve_protobuf_path fs st pp =
          .error (.err (.Other
            ("protobuf include " ++ pp ++ " is not found in include path")))) ∧
    (∀ (fs : FileSys) (st : ParserState) (pp : String) (p : FsPath),
        resolve_protobuf_path fs st pp = .ok p →
        ∃ i : Fin st.include_path.length,
          p = st.include_path.get i ++ protobufPathComponents pp ∧
          (fs.read p).isSome = true ∧
          ∀ j : Fin st.include_path.length, j.val < i.val →
            fs.read (st.include_path.get j ++ protobufPathComponents pp) = none) := by
  constructor
  · intro fs st pp hall
    rw [resolve_protobuf_path]
    have hfind : st.include_path.find?
        (fun d => (fs.read (d ++ protobufPathComponents pp)).isSome) = none := by
      rw [List.find?_eq_none]
      intro d hd
      simp [hall d hd]
    simp only [hfind]
  · intro fs st pp p h
    rw [resolve_protobuf_path] at h
    split at h
    · rename_i d hfind
      injection h with h2
      obtain ⟨i, hget, hp, hbefore⟩ := find?_first_index _ _ _ hfind
      refine ⟨i, by rw [← h2, hget], by rw [← h2]; exact hget ▸ hp, ?_⟩
      intro j hj
      have hr := hbefore j hj
      cases hread : fs.read (st.include_path.get j ++ protobufPathComponents pp) with
      | none => rfl
      | some c => rw [hread] at hr; simp at hr
    · cases h

/-- Witness for C8: with include path `[a, b]` and the file present only
under `b`, resolution skips `a` and returns the join with `b`; with no
matching directory it fails. -/
theorem resolve_protobuf_path_first_match_witness :
    (resolve_protobuf_path [(["b", "x.proto"], "")]
        (ParserState.mk [["a"], ["b"]] [] []) "x.proto" = .ok ["b", "x.proto"]) ∧
      (∃ i : Fin (ParserState.mk [["a"], ["b"]] [] []).include_path.length,
        ["b", "x.proto"] =
          (ParserState.mk [["a"], ["b"]] [] []).include_path.get i ++
            protobufPathComponents "x.proto") ∧
      resolve_protobuf_path [(["b", "x.proto"], "")]
        (ParserState.mk [["a"]] [] []) "x.proto" =
          .error (.err (.Other
            "protobuf include x.proto is not found in include path")) := by
  have h1 : resolve_protobuf_path [(["b", "x.proto"], "")]
      (ParserState.mk [["a"], ["b"]] [] []) "x.proto" = .ok ["b", "x.proto"] := by
    rw [resolve_protobuf_path]
    rfl
  refine ⟨h1, ?_, ?_⟩
  · obtain ⟨i, hi, -, -⟩ := resolve_protobuf_path_first_match.2
      [(["b", "x.proto"], "")] (ParserState.mk [["a"], ["b"]] [] []) "x.proto"
      ["b", "x.proto"] h1
    exact ⟨i, hi⟩
  · exact resolve_protobuf_path_first_match.1 [(["b", "x.proto"], "")]
      (ParserState.mk [["a"]] [] []) "x.proto" (by decide)

/-- When some input file lies under no include directory, the input loop
fails. -/
theorem processInputFiles_fails (fs : FileSys) (fuel : Nat) :
    ∀ (fl : List FsPath) (st : ParserState) (f : FsPath),
      f ∈ fl → firstStrip st.include_path f = none →
      ∃ e, processInputFiles fs fuel fl st = .error e := by
  intro fl
  induction fl with
  | nil => intro st f hf _; cases hf
  | cons g rest ih =>
    intro st f hf hn
    rw [processInputFiles]
    cases hg : process_input_file fs fuel g st with
    | error e => exact ⟨e, by simp only [hg]⟩
    | ok st1 =>
      rcases List.mem_cons.mp hf with rfl | hf2
      · rw [process_input_file, hn] at hg
        cases hg
      · have hinc : st1.include_path = st.include_path := by
          rw [process_input_file] at hg
          split at hg
          · exact process_file_include_eq fs fuel _ _ _ _ _ hg
          · cases hg
        obtain ⟨e, he⟩ := ih st1 f hf2 (by rw [hinc]; exact hn)
        exact ⟨e, by simp only [hg]; exact he⟩

/-- C7: the canonical path of an input file is the suffix left by the first
include directory that is a prefix of it (`process_input_file` then equals
`process_file` on that canonical path, with the input flag set); when no
include directory is a prefix the statement errors, and the whole
`parse_with_dependencies` call then fails, returning no descriptors. -/
theorem process_input_file_canonical :
    (∀ (fs : FileSys) (fuel : Nat) (f : FsPath) (st : ParserState) (rel : FsPath),
        firstStrip st.include_path f = some rel →
        process_input_file fs fuel f st =
          process_file fs fuel (relative_path_to_protobuf_path rel) f true st) ∧
    (∀ (fs : FileSys) (fuel : Nat) (f : FsPath) (st : ParserState),
        firstStrip st.include_path f = none →
        process_input_file fs fuel f st =
          .error (.err (.Other "file must reside in include path"))) ∧
    (∀ (fs : FileSys) (fuel : Nat) (incs files : List FsPath) (f : FsPath),
        f ∈ files → firstStrip incs f = none →
        ∃ e, parse_with_dependencies fs fuel incs files = .error e) := by
  refine ⟨?_, ?_, ?_⟩
  · intro fs fuel f st rel h
    rw [process_input_file, h]
  · intro fs fuel f st h
    rw [process_input_file, h]
  · intro fs fuel incs files f hf hn
    obtain ⟨e, he⟩ := processInputFiles_fails fs fuel files ⟨incs, [], []⟩ f hf hn
    exact ⟨e, by rw [parse_with_dependencies, he]⟩

/-- Witness for C7: a file under the single include directory is processed
under its stripped canonical path, and a file outside it makes the whole
call fail. -/
theorem process_input_file_canonical_witness :
    (process_input_file [] 1 ["inc", "f.proto"] (ParserState.mk [["inc"]] [] []) =
        process_file [] 1 (relative_path_to_protobuf_path ["f.proto"])
          ["inc", "f.proto"] true (ParserState.mk [["inc"]] [] [])) ∧
      (∃ e, parse_with_dependencies [] 1 [["inc"]] [["other", "f.proto"]] =
        .error e) := by
  constructor
  · exact process_input_file_canonical.1 [] 1 ["inc", "f.proto"]
      (ParserState.mk [["inc"]] [] []) ["f.proto"] (by decide)
  · exact process_input_file_canonical.2.2 [] 1 [["inc"]] [["other", "f.proto"]]
      ["other", "f.proto"] (by simp) (by decide)

set_option maxHeartbeats 2000000 in
/-- The top-level loop only changes the stored syntax when it consumes a
`syntax` declaration, which requires the stream to open with the `syntax`
identifier while no statement has been consumed yet. -/
theorem topLoop_syntax_eq :
    ∀ (fuel : Nat) (endl : Loc) (first : Bool) (fd : FileDescriptor) (ts : TL)
      (fd' : FileDescriptor),
      topLoop fuel endl first fd ts = .ok fd' →
      (first = false ∨ headIsSyntaxTok ts = false) →
      fd'.syntax_ = fd.syntax_ := by
  intro fuel
  induction fuel with
  | zero =>
    intro endl first fd ts fd' h _
    rw [topLoop.eq_def] at h
    cases h
  | succ f ih =>
    intro endl first fd ts fd' h hns
    rw [topLoop.eq_def] at h
    split at h
    all_goals (repeat' split at h)
    all_goals
      first
      | (cases h; done)
      | (injection h with h2; rw [← h2])
      | (simp_all [headIsSyntaxTok]; done)
      | (rename f + 1 = _ => hfe
         have hfe2 := Nat.add_right_cancel hfe
         subst hfe2
         have h3 := ih _ _ _ _ _ h (Or.inl rfl)
         simpa using h3)

/-- C2: a valid input with no `syntax` declaration parses to a descriptor
whose syntax is `Proto2`, which is also the default value of the `Syntax`
type. -/
theorem parse_no_syntax_decl_proto2 (s : String) (fd : FileDescriptor)
    (h : FileDescriptor.parse s = .ok fd)
    (h2 : startsWithSyntaxDecl s = false) :
    fd.syntax_ = .Proto2 ∧ Syntax.default = .Proto2 := by
  refine ⟨?_, rfl⟩
  rw [FileDescriptor.parse] at h
  cases hl : lexAll s with
  | error el => rw [hl] at h; simp at h
  | ok r =>
    obtain ⟨toks, endl⟩ := r
    rw [hl] at h
    simp only [] at h
    cases hnp : next_proto toks endl with
    | error el => rw [hnp] at h; simp at h
    | ok fd0 =>
      rw [hnp] at h
      simp at h
      rw [startsWithSyntaxDecl, hl] at h2
      simp at h2
      rw [next_proto] at hnp
      have h4 := topLoop_syntax_eq _ _ _ _ _ _ hnp (Or.inr h2)
      rw [← h, h4]
      rfl

/-- Witness for C2: a file consisting of one empty statement parses and its
syntax is `Proto2`. -/
theorem parse_no_syntax_decl_proto2_witness :
    ∃ fd, FileDescriptor.parse ";" = .ok fd ∧ fd.syntax_ = .Proto2 :=
  ⟨_, rfl, (parse_no_syntax_decl_proto2 ";" _ rfl rfl).1⟩

/-- `allMsgsList` distributes over list append. -/
theorem allMsgsList_append :
    ∀ (a b : List Message), allMsgsList (a ++ b) = allMsgsList a ++ allMsgsList b := by
  intro a
  induction a with
  | nil => intro b; simp [allMsgsList]
  | cons m ms ih => intro b; simp [allMsgsList, ih, List.append_assoc]

/-- The structural invariant of a built message, split into its own oneofs
and ranges and those of its nested messages. -/
theorem msgOk_iff (n : String) (f : List Field) (o : List OneOf)
    (rn : List FieldNumberRange) (rs : List String) (ms : List Message)
    (es : List Enumeration) :
    msgOk (.mk n f o rn rs ms es) ↔
      (oneofFieldsOk (.mk n f o rn rs ms es) ∧ rangesOk (.mk n f o rn rs ms es)) ∧
        ∀ x ∈ allMsgsList ms, oneofFieldsOk x ∧ rangesOk x := by
  constructor
  · intro hm
    refine ⟨hm _ (by rw [Message.allMsgs]; exact List.mem_cons_self _ _), ?_⟩
    intro x hx
    exact hm x (by rw [Message.allMsgs]; exact List.mem_cons_of_mem _ hx)
  · rintro ⟨hself, hrest⟩ x hx
    rw [Message.allMsgs] at hx
    rcases List.mem_cons.mp hx with rfl | hx2
    · exact hself
    · exact hrest x hx2

/-- Adding a plain field preserves the message invariant. -/
theorem msgOk_addField (m : Message) (fld : Field) (hm : msgOk m) :
    msgOk (m.addField fld) := by
  cases m with
  | mk n f o rn rs ms es =>
    rw [Message.addField, msgOk_iff]
    rw [msgOk_iff] at hm
    exact ⟨⟨fun o2 ho2 => hm.1.1 o2 ho2, fun r hr => hm.1.2 r hr⟩, hm.2⟩

/-- Adding reserved names preserves the message invariant. -/
theorem msgOk_addReservedNames (m : Message) (ns : List String) (hm : msgOk m) :
    msgOk (m.addReservedNames ns) := by
  cases m with
  | mk n f o rn rs ms es =>
    rw [Message.addReservedNames, msgOk_iff]
    rw [msgOk_iff] at hm
    exact ⟨⟨fun o2 ho2 => hm.1.1 o2 ho2, fun r hr => hm.1.2 r hr⟩, hm.2⟩

/-- Adding a nested enum preserves the message invariant. -/
theorem msgOk_addEnum (m : Message) (en : Enumeration) (hm : msgOk m) :
    msgOk (m.addEnum en) := by
  cases m with
  | mk n f o rn rs ms es =>
    rw [Message.addEnum, msgOk_iff]
    rw [msgOk_iff] at hm
    exact ⟨⟨fun o2 ho2 => hm.1.1 o2 ho2, fun r hr => hm.1.2 r hr⟩, hm.2⟩

/-- Adding ordered reserved ranges preserves the message invariant. -/
theorem msgOk_addReservedNums (m : Message) (rg : List FieldNumberRange)
    (hm : msgOk m) (hrg : ∀ r ∈ rg, r.from' ≤ r.to') :
    msgOk (m.addReservedNums rg) := by
  cases m with
  | mk n f o rn rs ms es =>
    rw [Message.addReservedNums, msgOk_iff]
    rw [msgOk_iff] at hm
    refine ⟨⟨fun o2 ho2 => hm.1.1 o2 ho2, ?_⟩, hm.2⟩
    intro r hr
    rcases List.mem_append.mp hr with h1 | h2
    · exact hm.1.2 r h1
    · exact hrg r h2

/-- Adding a oneof whose fields are all optional and non-map preserves the
message invariant. -/
theorem msgOk_addOneOf (m : Message) (oo : OneOf) (hm : msgOk m)
    (hoo : ∀ fl ∈ oo.fields, fl.rule = .Optional ∧ isMapType fl.typ = false) :
    msgOk (m.addOneOf oo) := by
  cases m with
  | mk n f o rn rs ms es =>
    rw [Message.addOneOf, msgOk_iff]
    rw [msgOk_iff] at hm
    refine ⟨⟨?_, fun r hr => hm.1.2 r hr⟩, hm.2⟩
    intro o2 ho2
    rcases List.mem_append.mp ho2 with h1 | h2
    · exact hm.1.1 o2 h1
    · rw [List.mem_singleton.mp h2]
      exact hoo

/-- Adding a nested message that itself satisfies the invariant preserves
the message invariant. -/
theorem msgOk_addMessage (m m' : Message) (hm : msgOk m) (hm' : msgOk m') :
    msgOk (m.addMessage m') := by
  cases m with
  | mk n f o rn rs ms es =>
    rw [Message.addMessage, msgOk_iff]
    rw [msgOk_iff] at hm
    refine ⟨hm.1, ?_⟩
    intro x hx
    rw [allMsgsList_append] at hx
    rcases List.mem_append.mp hx with hx1 | hx2
    · exact hm.2 x hx1
    · refine hm' x ?_
      simpa [allMsgsList] using hx2

/-- The freshly created message satisfies the invariant. -/
theorem msgOk_empty (name : String) : msgOk (Message.empty name) := by
  rw [Message.empty, msgOk_iff]
  refine ⟨⟨?_, ?_⟩, ?_⟩
  · intro o2 ho2; cases ho2
  · intro r hr; cases hr
  · intro x hx; simp [allMsgsList] at hx

/-- A scalar type keyword never denotes a map type. -/
theorem scalarType_not_map (s : String) (t : FieldType)
    (h : scalarType s = some t) : isMapType t = false := by
  rw [scalarType.eq_def] at h
  split at h <;>
    first
    | (cases h; done)
    | (injection h with h2; subst h2; rfl)

/-- The non-map type production never returns a map type. -/
theorem parseFieldType_not_map (endl : Loc) (ts : TL) (t : FieldType) (rest : TL)
    (h : parseFieldType endl ts = .ok (t, rest)) : isMapType t = false := by
  rw [parseFieldType.eq_def] at h
  split at h
  all_goals (repeat' split at h)
  all_goals
    first
    | (cases h; done)
    | (injection h with h2; injection h2 with h3 h4; rw [← h3]; rfl)
    | (rename scalarType _ = _ => hst
       injection h with h2
       injection h2 with h3 h4
       rw [← h3]
       exact scalarType_not_map _ _ hst)

/-- The field-tail production returns a field with exactly the rule and type
it was given. -/
theorem parseFieldTail_shape (fuel : Nat) (syn : Syntax) (endl : Loc)
    (rule : Rule) (typ : FieldType) (ts : TL) (fld : Field) (rest : TL)
    (h : parseFieldTail fuel syn endl rule typ ts = .ok (fld, rest)) :
    fld.rule = rule ∧ fld.typ = typ := by
  rw [parseFieldTail] at h
  split at h
  · cases h
  · split at h
    · cases h
    · split at h
      · cases h
      · split at h
        · cases h
        · split at h
          · cases h
          · injection h with h2
            injection h2 with h3 _
            rw [← h3]
            exact ⟨rfl, rfl⟩

/-- A parsed range item is ordered. -/
theorem rangeItem_le (endl : Loc) (ts : TL) (r : FieldNumberRange) (rest : TL)
    (h : rangeItem endl ts = .ok (r, rest)) : r.from' ≤ r.to' := by
  rw [rangeItem.eq_def] at h
  split at h
  all_goals (repeat' split at h)
  all_goals
    first
    | (cases h; done)
    | ((injection h with h2; injection h2 with h3 h4; rw [← h3]) <;> simp <;> omega)

/-- Every range produced by the range-list loop is ordered, provided the
accumulator's ranges are. -/
theorem rangeListLoop_le :
    ∀ (fuel : Nat) (endl : Loc) (acc : List FieldNumberRange) (ts : TL)
      (rs : List FieldNumberRange) (rest : TL),
      rangeListLoop fuel endl acc ts = .ok (rs, rest) →
      (∀ r ∈ acc, r.from' ≤ r.to') → ∀ r ∈ rs, r.from' ≤ r.to' := by
  intro fuel
  induction fuel with
  | zero =>
    intro endl acc ts rs rest h _
    rw [rangeListLoop] at h
    cases h
  | succ f ih =>
    intro endl acc ts rs rest h hacc
    rw [rangeListLoop] at h
    split at h
    · cases h
    · rename_i r0 rest0 hitem
      have hr0 := rangeItem_le _ _ _ _ hitem
      have hacc2 : ∀ r ∈ acc ++ [r0], r.from' ≤ r.to' := by
        intro r hr
        rcases List.mem_append.mp hr with h1 | h2
        · exact hacc r h1
        · rw [List.mem_singleton.mp h2]; exact hr0
      split at h
      · exact ih _ _ _ _ _ h hacc2
      · injection h with h2
        injection h2 with h3 _
        rw [← h3]
        exact hacc2
      · cases h
      · cases h

/-- Every field of a parsed oneof body has rule `Optional` and a non-map
type, provided the accumulated fields do. -/
theorem oneofItems_fields :
    ∀ (fuel : Nat) (syn : Syntax) (endl : Loc) (name : String)
      (acc : List Field) (ts : TL) (oo : OneOf) (rest : TL),
      oneofItems fuel syn endl name acc ts = .ok (oo, rest) →
      (∀ fl ∈ acc, fl.rule = .Optional ∧ isMapType fl.typ = false) →
      ∀ fl ∈ oo.fields, fl.rule = .Optional ∧ isMapType fl.typ = false := by
  intro fuel
  induction fuel with
  | zero =>
    intro syn endl name acc ts oo rest h _
    rw [oneofItems.eq_def] at h
    cases h
  | succ f ih =>
    intro syn endl name acc ts oo rest h hacc
    rw [oneofItems.eq_def] at h
    split at h
    all_goals (repeat' split at h)
    all_goals
      first
      | (cases h; done)
      | (injection h with h2; injection h2 with h3 h4; rw [← h3]; exact hacc)
      | (rename f + 1 = _ => hfe
         have hf2 := Nat.add_right_cancel hfe
         subst hf2
         first
         | exact ih _ _ _ _ _ _ _ h hacc
         | (rename parseFieldType _ _ = _ => hft
            rename parseFieldTail _ _ _ _ _ _ = _ => htl
            refine ih _ _ _ _ _ _ _ h ?_
            intro fl hfl
            rcases List.mem_append.mp hfl with h1 | h2
            · exact hacc _ h1
            · rw [List.mem_singleton.mp h2]
              obtain ⟨hr, hty⟩ := parseFieldTail_shape _ _ _ _ _ _ _ _ htl
              exact ⟨hr, by rw [hty]; exact parseFieldType_not_map _ _ _ _ hft⟩))

/-- The message-body and message productions establish the message
invariant: every oneof field is optional and non-map, every reserved range
ordered, recursively in nested messages. -/
theorem parser_msgOk :
    ∀ (fuel : Nat),
      (∀ (syn : Syntax) (endl : Loc) (acc : Message) (exts : List Extension)
        (ts : TL) (m : Message) (exts2 : List Extension) (rest : TL),
        messageItems fuel syn endl acc exts ts = .ok ((m, exts2), rest) →
        msgOk acc → msgOk m) ∧
      (∀ (syn : Syntax) (endl : Loc) (ts : TL) (m : Message)
        (exts : List Extension) (rest : TL),
        parseMessage fuel syn endl ts = .ok ((m, exts), rest) → msgOk m) := by
  intro fuel
  induction fuel with
  | zero =>
    constructor
    · intro syn endl acc exts ts m exts2 rest h _
      rw [messageItems.eq_def] at h
      cases h
    · intro syn endl ts m exts rest h
      rw [parseMessage.eq_def] at h
      cases h
  | succ f ih =>
    constructor
    · intro syn endl acc exts ts m exts2 rest h hacc
      rw [messageItems.eq_def] at h
      split at h
      all_goals (repeat' split at h)
      all_goals
        first
        | (cases h; done)
        | (injection h with h2; injection h2 with h3 h4; injection h3 with h5 h6
           rw [← h5]; exact hacc)
        | (rename f + 1 = _ => hfe
           have hf2 := Nat.add_right_cancel hfe
           subst hf2
           first
           | exact ih.1 _ _ _ _ _ _ _ _ h hacc
           | (rename parseMessage _ _ _ _ = _ => hpm
              exact ih.1 _ _ _ _ _ _ _ _ h
                (msgOk_addMessage _ _ hacc (ih.2 _ _ _ _ _ _ hpm)))
           | exact ih.1 _ _ _ _ _ _ _ _ h (msgOk_addEnum _ _ hacc)
           | exact ih.1 _ _ _ _ _ _ _ _ h (msgOk_addReservedNames _ _ hacc)
           | (rename oneofItems _ _ _ _ _ _ = _ => hoo
              exact ih.1 _ _ _ _ _ _ _ _ h
                (msgOk_addOneOf _ _ hacc
                  (oneofItems_fields _ _ _ _ _ _ _ _ hoo
                    (by intro fl hfl; cases hfl))))
           | (rename rangeListLoop _ _ _ _ = _ => hrl
              exact ih.1 _ _ _ _ _ _ _ _ h
                (msgOk_addReservedNums _ _ hacc
                  (rangeListLoop_le _ _ _ _ _ _ hrl (by intro r hr; cases hr))))
           | exact ih.1 _ _ _ _ _ _ _ _ h (msgOk_addField _ _ hacc))
    · intro syn endl ts m exts rest h
      rw [parseMessage.eq_def] at h
      split at h
      all_goals (repeat' split at h)
      all_goals
        first
        | (cases h; done)
        | (rename f + 1 = _ => hfe
           have hf2 := Nat.add_right_cancel hfe
           subst hf2
           exact ih.1 _ _ _ _ _ _ _ _ h (msgOk_empty _))

/-- Appending an invariant-satisfying message (with its surfaced
extensions) preserves the descriptor invariant. -/
theorem fdOk_addMessage (fd : FileDescriptor) (m : Message)
    (es' : List Extension) (hfd : fdOk fd) (hm : msgOk m) :
    fdOk { fd with messages := fd.messages ++ [m],
                   extensions := fd.extensions ++ es' } := by
  intro x hx
  have hx2 : x ∈ allMsgsList (fd.messages ++ [m]) := hx
  rw [allMsgsList_append] at hx2
  rcases List.mem_append.mp hx2 with h1 | h2
  · exact hfd x h1
  · exact hm x (by simpa [allMsgsList] using h2)

set_option maxHeartbeats 2000000 in
/-- Every run of the top-level loop preserves the descriptor invariant. -/
theorem topLoop_fdOk :
    ∀ (fuel : Nat) (endl : Loc) (first : Bool) (fd : FileDescriptor) (ts : TL)
      (fd' : FileDescriptor),
      topLoop fuel endl first fd ts = .ok fd' → fdOk fd → fdOk fd' := by
  intro fuel
  induction fuel with
  | zero =>
    intro endl first fd ts fd' h _
    rw [topLoop.eq_def] at h
    cases h
  | succ f ih =>
    intro endl first fd ts fd' h hfd
    rw [topLoop.eq_def] at h
    split at h
    all_goals (repeat' split at h)
    all_goals
      first
      | (cases h; done)
      | (injection h with h2; rw [← h2]; exact hfd)
      | (rename f + 1 = _ => hfe
         have hf2 := Nat.add_right_cancel hfe
         subst hf2
         first
         | (refine ih _ _ _ _ _ h ?_
            intro x hx
            exact hfd x (by simpa using hx))
         | (rename parseMessage _ _ _ _ = _ => hpm
            exact ih _ _ _ _ _ h
              (fdOk_addMessage _ _ _ hfd ((parser_msgOk _).2 _ _ _ _ _ _ hpm))))

/-- A bare reserved number `n` parses to the range `[n, n]`. -/
theorem rangeItem_bare (endl : Loc) (n : Nat) (l : Loc) (rest : TL)
    (hn : n ≤ 2147483647) (ht : headIsToTok rest = false) :
    rangeItem endl ((.intLit n, l) :: rest) = .ok (⟨(n : Int), (n : Int)⟩, rest) := by
  rw [rangeItem.eq_def]
  split
  · rename_i x0 nn ll tl heq
    injection heq with hpair htail
    injection hpair with htok hloc
    injection htok with hnn
    subst hnn
    subst htail
    rw [if_pos hn]
    split
    all_goals simp_all [headIsToTok]
  · rename_i x0 t2 l2 tl2 hno heq
    injection heq with h1 h2
    injection h1 with h1a h1b
    exact absurd h1a.symm (hno _)
  · rename_i heq
    exact absurd heq (by simp)

/-- C3: in every accepted input, every field of every oneof of every message
(nested ones included) has rule `Optional` and its type is not the `Map`
variant. -/
theorem parse_oneof_fields_optional_nonmap (s : String) (fd : FileDescriptor)
    (h : FileDescriptor.parse s = .ok fd) :
    ∀ m ∈ fd.allMessages, ∀ o ∈ m.oneofs, ∀ fl ∈ o.fields,
      fl.rule = .Optional ∧ isMapType fl.typ = false := by
  rw [FileDescriptor.parse] at h
  cases hl : lexAll s with
  | error el => rw [hl] at h; simp at h
  | ok r =>
    obtain ⟨toks, endl⟩ := r
    rw [hl] at h
    simp only [] at h
    cases hnp : next_proto toks endl with
    | error el => rw [hnp] at h; simp at h
    | ok fd0 =>
      rw [hnp] at h
      simp at h
      rw [next_proto] at hnp
      have hfd := topLoop_fdOk _ _ _ _ _ _ hnp
        (by intro x hx; simp [FileDescriptor.default, allMsgsList] at hx)
      intro m hm o ho fl hfl
      rw [← h] at hm
      exact (hfd m hm).1 o ho fl hfl

/-- Witness for C3: a message with a oneof of two fields parses, and the
invariant holds of the result. -/
theorem parse_oneof_fields_optional_nonmap_witness :
    ∃ fd, FileDescriptor.parse
        "message M { oneof o { int32 a = 1; string b = 2; } }" = .ok fd ∧
      ∀ m ∈ fd.allMessages, ∀ o ∈ m.oneofs, ∀ fl ∈ o.fields,
        fl.rule = .Optional ∧ isMapType fl.typ = false := by
  refine ⟨_, rfl, ?_⟩
  exact parse_oneof_fields_optional_nonmap
    "message M { oneof o { int32 a = 1; string b = 2; } }" _ rfl

/-- C4: in every accepted input every reserved range satisfies
`from' ≤ to'`, and a reserved declaration listing a bare number `n` yields
the range `from' = to' = n`. -/
theorem parse_reserved_ranges_ordered (s : String) (fd : FileDescriptor)
    (h : FileDescriptor.parse s = .ok fd) :
    (∀ m ∈ fd.allMessages, ∀ r ∈ m.reserved_nums, r.from' ≤ r.to') ∧
      (∀ (endl : Loc) (n : Nat) (l : Loc) (rest : TL), n ≤ 2147483647 →
        headIsToTok rest = false →
        rangeItem endl ((.intLit n, l) :: rest) =
          .ok (⟨(n : Int), (n : Int)⟩, rest)) := by
  constructor
  · rw [FileDescriptor.parse] at h
    cases hl : lexAll s with
    | error el => rw [hl] at h; simp at h
    | ok r =>
      obtain ⟨toks, endl⟩ := r
      rw [hl] at h
      simp only [] at h
      cases hnp : next_proto toks endl with
      | error el => rw [hnp] at h; simp at h
      | ok fd0 =>
        rw [hnp] at h
        simp at h
        rw [next_proto] at hnp
        have hfd := topLoop_fdOk _ _ _ _ _ _ hnp
          (by intro x hx; simp [FileDescriptor.default, allMsgsList] at hx)
        intro m hm r hr
        rw [← h] at hm
        exact (hfd m hm).2 r hr
  · intro endl n l rest hn ht
    exact rangeItem_bare endl n l rest hn ht

/-- Witness for C4: the spec's reserved-range scenario parses with ordered
ranges, and a bare `5` yields the range `[5, 5]`. -/
theorem parse_reserved_ranges_ordered_witness :
    ∃ fd, FileDescriptor.parse "message M { reserved 2, 15, 9 to 11; }" = .ok fd ∧
      (∀ m ∈ fd.allMessages, ∀ r ∈ m.reserved_nums, r.from' ≤ r.to') ∧
      rangeItem ⟨0, 0⟩ [(.intLit 5, ⟨0, 0⟩)] = .ok (⟨5, 5⟩, []) := by
  refine ⟨_, rfl, ?_, ?_⟩
  · exact (parse_reserved_ranges_ordered
      "message M { reserved 2, 15, 9 to 11; }" _ rfl).1
  · exact (parse_reserved_ranges_ordered
      "message M { reserved 2, 15, 9 to 11; }" _ rfl).2 ⟨0, 0⟩ 5 ⟨0, 0⟩ []
      (by decide) rfl

/-- The walker invariant is stable under pointwise-equivalent input sets. -/
theorem WInv_congr {S S' C : String → Prop} {st : ParserState}
    (hiff : ∀ q, S q ↔ S' q) (h : WInv S C st) : WInv S' C st := by
  refine ⟨h.keysVisited, h.keysNodup, ?_, ?_, h.keyMatch, h.prov⟩
  · intro p hp
    exact h.sVisited p ((hiff p).mpr hp)
  · intro e he
    exact (h.flags e he).trans (hiff e.1)

/-- Marking an entry as input does not change the keys of the parsed map. -/
theorem markInput_map_fst (parsed : List (String × FileDescriptorWithContext))
    (pp : String) : (markInput parsed pp).map Prod.fst = parsed.map Prod.fst := by
  induction parsed with
  | nil => rfl
  | cons e rest ih =>
    simp only [markInput, List.map_cons] at ih ⊢
    by_cases h : e.1 = pp <;> simp [h, ih]

/-- A member of the marked map comes from a member of the original map. -/
theorem mem_markInput {parsed : List (String × FileDescriptorWithContext)}
    {pp : String} {e : String × FileDescriptorWithContext}
    (he : e ∈ markInput parsed pp) :
    ∃ e0 ∈ parsed,
      (if e0.1 = pp then (e0.1, { e0.2 with input := true }) else e0) = e := by
  unfold markInput at he
  obtain ⟨e0, he0, he'⟩ := List.mem_map.mp he
  simp only [] at he'
  exact ⟨e0, he0, he'⟩

/-- Flipping the input flag of a visited path preserves the walker invariant,
the tracked input set gaining that path. -/
theorem WInv_markInput {S C : String → Prop} {st : ParserState} {pp : String}
    (hinv : WInv S C st) (hv : pp ∈ st.visited) :
    WInv (fun q => S q ∨ q = pp) C
      { st with parsed := markInput st.parsed pp } := by
  refine ⟨?_, ?_, ?_, ?_, ?_, ?_⟩
  · intro k hk
    have hk' : k ∈ pKeys st := by
      simpa [pKeys, markInput_map_fst] using hk
    exact hinv.keysVisited k hk'
  · have hk : pKeys { st with parsed := markInput st.parsed pp } = pKeys st := by
      simp [pKeys, markInput_map_fst]
    rw [hk]
    exact hinv.keysNodup
  · intro p hp
    rcases hp with hp | rfl
    · exact hinv.sVisited p hp
    · exact hv
  · intro e he
    obtain ⟨e0, he0, he'⟩ :=
      mem_markInput (show e ∈ markInput st.parsed pp from he)
    by_cases h0 : e0.1 = pp
    · rw [if_pos h0] at he'
      subst he'
      constructor
      · intro _
        exact .inr h0
      · intro _
        rfl
    · rw [if_neg h0] at he'
      subst he'
      have hfl := hinv.flags e0 he0
      constructor
      · intro hi
        exact .inl (hfl.mp hi)
      · rintro (hs | hq)
        · exact hfl.mpr hs
        · exact absurd hq h0
  · intro e he
    obtain ⟨e0, he0, he'⟩ :=
      mem_markInput (show e ∈ markInput st.parsed pp from he)
    by_cases h0 : e0.1 = pp
    · rw [if_pos h0] at he'
      subst he'
      exact hinv.keyMatch e0 he0
    · rw [if_neg h0] at he'
      subst he'
      exact hinv.keyMatch e0 he0
  · intro e he
    obtain ⟨e0, he0, he'⟩ :=
      mem_markInput (show e ∈ markInput st.parsed pp from he)
    by_cases h0 : e0.1 = pp
    · rw [if_pos h0] at he'
      subst he'
      exact hinv.prov e0 he0
    · rw [if_neg h0] at he'
      subst he'
      exact hinv.prov e0 he0

/-- Adding a path to the visited set preserves the walker invariant. -/
theorem WInv_consVisited {S C : String → Prop} {st : ParserState} (pp : String)
    (hinv : WInv S C st) :
    WInv S C { st with visited := pp :: st.visited } := by
  refine ⟨?_, hinv.keysNodup, ?_, hinv.flags, hinv.keyMatch, hinv.prov⟩
  · intro k hk
    exact List.mem_cons_of_mem _ (hinv.keysVisited k hk)
  · intro p hp
    exact List.mem_cons_of_mem _ (hinv.sVisited p hp)

/-- Inserting a fresh visited key with a provenanced path preserves the
walker invariant, the tracked input set gaining the path when it is inserted
as an input. -/
theorem WInv_insert {S C : String → Prop} {st2 : ParserState} {pp : String}
    (fd : FileDescriptor) (inp : Bool)
    (hinv : WInv S C st2) (hfresh : pp ∉ pKeys st2) (hvis : pp ∈ st2.visited)
    (hCpp : C pp) (hSpp : ¬ S pp) :
    WInv (fun q => S q ∨ (inp = true ∧ q = pp)) C
      { st2 with parsed := st2.parsed ++ [(pp, ⟨pp, fd, inp⟩)] } := by
  refine ⟨?_, ?_, ?_, ?_, ?_, ?_⟩
  · intro k hk
    have hk' : k ∈ pKeys st2 ∨ k = pp := by
      simpa [pKeys] using hk
    rcases hk' with hk' | rfl
    · exact hinv.keysVisited k hk'
    · exact hvis
  · have hkeys : pKeys { st2 with parsed := st2.parsed ++ [(pp, ⟨pp, fd, inp⟩)] }
        = pKeys st2 ++ [pp] := by
      simp [pKeys]
    rw [hkeys, List.nodup_append]
    refine ⟨hinv.keysNodup, List.nodup_singleton pp, ?_⟩
    intro a ha hb
    rw [List.mem_singleton] at hb
    subst hb
    exact hfresh ha
  · intro p hp
    rcases hp with hp | ⟨_, rfl⟩
    · exact hinv.sVisited p hp
    · exact hvis
  · intro e he
    have he' : e ∈ st2.parsed ++ [(pp, ⟨pp, fd, inp⟩)] := he
    rw [List.mem_append] at he'
    rcases he' with he' | he'
    · have hfl := hinv.flags e he'
      have hne : e.1 ≠ pp := by
        intro hq
        apply hfresh
        rw [← hq]
        exact List.mem_map_of_mem _ he'
      constructor
      · intro hi
        exact .inl (hfl.mp hi)
      · rintro (hs | ⟨_, hq⟩)
        · exact hfl.mpr hs
        · exact absurd hq hne
    · rw [List.mem_singleton] at he'
      subst he'
      constructor
      · intro hi
        exact .inr ⟨hi, rfl⟩
      · rintro (hs | ⟨hi, _⟩)
        · exact absurd hs hSpp
        · exact hi
  · intro e he
    have he' : e ∈ st2.parsed ++ [(pp, ⟨pp, fd, inp⟩)] := he
    rw [List.mem_append] at he'
    rcases he' with he' | he'
    · exact hinv.keyMatch e he'
    · rw [List.mem_singleton] at he'
      subst he'
      rfl
  · intro e he
    have he' : e ∈ st2.parsed ++ [(pp, ⟨pp, fd, inp⟩)] := he
    rw [List.mem_append] at he'
    rcases he' with he' | he'
    · exact hinv.prov e he'
    · rw [List.mem_singleton] at he'
      subst he'
      exact hCpp

/-- A key outside the parsed map makes the duplicate check come out false. -/
theorem parsed_any_eq_false (st2 : ParserState) (pp : String)
    (hfresh : pp ∉ pKeys st2) :
    st2.parsed.any (fun e => e.1 == pp) = false := by
  rw [List.any_eq_false]
  intro e he
  simp only [beq_iff_eq]
  intro hq
  apply hfresh
  rw [← hq]
  exact List.mem_map_of_mem _ he

/-- Introduction form for `importStringsProp`. -/
theorem importStringsProp_intro {fs : FileSys} {q : FsPath} {c : String}
    {fd : FileDescriptor} {p : String} (hread : fs.read q = some c)
    (hparse : FileDescriptor.parse c = .ok fd) (hp : p ∈ fd.import_paths) :
    importStringsProp fs p := by
  unfold importStringsProp
  exact ⟨q, c, fd, hread, hparse, hp⟩

/-- A failing resolution carries the not-found error. -/
theorem resolve_protobuf_path_error_shape (fs : FileSys) (st : ParserState)
    (ip : String) (e : WalkError)
    (h : resolve_protobuf_path fs st ip = .error e) :
    e = .err (.Other
      ("protobuf include " ++ ip ++ " is not found in include path")) := by
  rw [resolve_protobuf_path] at h
  split at h
  · cases h
  · injection h with h2
    exact h2.symm

/-- The import loop satisfies the master invariant whenever `process_file`
does at the same fuel. -/
theorem processImports_master_of (fs : FileSys) (C : String → Prop)
    (fuel : Nat) (hpf : PFconcl fs C fuel) : PIconcl fs C fuel := by
  rw [PFconcl] at hpf
  rw [PIconcl]
  intro imports
  induction imports with
  | nil =>
    intro st S hinv _
    constructor
    · rw [processImports]
      simp
    · intro st' h
      rw [processImports] at h
      injection h with h2
      subst h2
      exact ⟨hinv, fun v hv => hv, fun k hk => .inl hk⟩
  | cons ip rest ih =>
    intro st S hinv hC
    have hCip : C ip := hC ip (List.mem_cons_self ip rest)
    have hCrest : ∀ p ∈ rest, C p := fun p hp =>
      hC p (List.mem_cons_of_mem ip hp)
    cases hr : resolve_protobuf_path fs st ip with
    | error e =>
      have he := resolve_protobuf_path_error_shape fs st ip e hr
      constructor
      · rw [processImports, hr]
        subst he
        simp
      · intro st' h
        rw [processImports, hr] at h
        cases h
    | ok p =>
      obtain ⟨hna, hok⟩ := hpf ip p false st S hinv hCip
      cases hp : process_file fs fuel ip p false st with
      | error e =>
        constructor
        · rw [processImports, hr]
          simp only []
          rw [hp]
          intro hcontra
          injection hcontra with h2
          subst h2
          exact hna hp
        · intro st' h
          rw [processImports, hr] at h
          simp only [] at h
          rw [hp] at h
          cases h
      | ok st1 =>
        obtain ⟨hinv1, hvis1, hfresh1⟩ := hok st1 hp
        have hinv1' : WInv S C st1 := WInv_congr (fun q => by simp) hinv1
        obtain ⟨hna2, hok2⟩ := ih st1 S hinv1' hCrest
        constructor
        · rw [processImports, hr]
          simp only []
          rw [hp]
          exact hna2
        · intro st' h
          rw [processImports, hr] at h
          simp only [] at h
          rw [hp] at h
          have h2 : processImports fs fuel rest st1 = Except.ok st' := h
          obtain ⟨hinv2, hvis2, hfresh2⟩ := hok2 st' h2
          refine ⟨hinv2, fun v hv => hvis2 v (hvis1 v hv), ?_⟩
          intro k hk
          rcases hfresh2 k hk with hk1 | hk1
          · rcases hfresh1 k hk1 with hk2 | hk2
            · exact .inl hk2
            · exact .inr hk2
          · exact .inr (fun hkv => hk1 (hvis1 k hkv))

/-- `process_file` satisfies the master invariant at every fuel: the Rust
assertion cannot fire, and success preserves the walker invariant. -/
theorem process_file_master (fs : FileSys) (C : String → Prop)
    (hC : ∀ p, importStringsProp fs p → C p) :
    ∀ fuel : Nat, PFconcl fs C fuel := by
  intro fuel
  induction fuel with
  | zero =>
    rw [PFconcl]
    intro pp fsp inp st S hinv hCpp
    suffices hs : ∀ r, process_file fs 0 pp fsp inp st = r →
        (r ≠ .error .assertionFailed) ∧
        (∀ st', r = .ok st' →
          WInv (fun q => S q ∨ (inp = true ∧ q = pp)) C st' ∧
          (∀ v ∈ st.visited, v ∈ st'.visited) ∧
          (∀ k ∈ pKeys st', k ∈ pKeys st ∨ k ∉ st.visited)) by
      obtain ⟨h1, h2⟩ := hs _ rfl
      exact ⟨h1, h2⟩
    intro r h
    rw [process_file] at h
    by_cases hv : pp ∈ st.visited
    · rw [if_pos hv] at h
      refine ⟨?_, ?_⟩
      · rw [← h]
        simp
      · intro st' h'
        rw [← h] at h'
        cases inp with
        | false =>
          rw [if_neg (by simp)] at h'
          injection h' with h2
          subst h2
          exact ⟨WInv_congr (fun q => by simp) hinv,
            fun v hv2 => hv2, fun k hk => .inl hk⟩
        | true =>
          rw [if_pos rfl] at h'
          injection h' with h2
          subst h2
          refine ⟨WInv_congr (fun q => by simp) (WInv_markInput hinv hv),
            fun v hv2 => hv2, ?_⟩
          intro k hk
          exact .inl (by simpa [pKeys, markInput_map_fst] using hk)
    · rw [if_neg hv] at h
      split at h
      · subst h
        exact ⟨by simp, fun st' h' => by cases h'⟩
      · split at h
        · subst h
          exact ⟨by simp, fun st' h' => by cases h'⟩
        · first
          | (subst h
             exact ⟨by simp, fun st' h' => by cases h'⟩)
          | (rename_i hfe
             exact absurd hfe (by omega))
  | succ f ihf =>
    have hPIc := processImports_master_of fs C f ihf
    rw [PIconcl] at hPIc
    rw [PFconcl]
    intro pp fsp inp st S hinv hCpp
    suffices hs : ∀ r, process_file fs (f + 1) pp fsp inp st = r →
        (r ≠ .error .assertionFailed) ∧
        (∀ st', r = .ok st' →
          WInv (fun q => S q ∨ (inp = true ∧ q = pp)) C st' ∧
          (∀ v ∈ st.visited, v ∈ st'.visited) ∧
          (∀ k ∈ pKeys st', k ∈ pKeys st ∨ k ∉ st.visited)) by
      obtain ⟨h1, h2⟩ := hs _ rfl
      exact ⟨h1, h2⟩
    intro r h
    rw [process_file] at h
    by_cases hv : pp ∈ st.visited
    · rw [if_pos hv] at h
      refine ⟨?_, ?_⟩
      · rw [← h]
        simp
      · intro st' h'
        rw [← h] at h'
        cases inp with
        | false =>
          rw [if_neg (by simp)] at h'
          injection h' with h2
          subst h2
          exact ⟨WInv_congr (fun q => by simp) hinv,
            fun v hv2 => hv2, fun k hk => .inl hk⟩
        | true =>
          rw [if_pos rfl] at h'
          injection h' with h2
          subst h2
          refine ⟨WInv_congr (fun q => by simp) (WInv_markInput hinv hv),
            fun v hv2 => hv2, ?_⟩
          intro k hk
          exact .inl (by simpa [pKeys, markInput_map_fst] using hk)
    · rw [if_neg hv] at h
      split at h
      · subst h
        exact ⟨by simp, fun st' h' => by cases h'⟩
      · rename_i content hread
        split at h
        · subst h
          exact ⟨by simp, fun st' h' => by cases h'⟩
        · rename_i fd hparse
          split at h
          · first
            | (subst h
               exact ⟨by simp, fun st' h' => by cases h'⟩)
            | (rename_i hfe
               exact absurd hfe (by omega))
          · rename_i fuel2 hfe
            have hf2 : fuel2 = f := by omega
            rw [hf2] at h
            have hinv1 := WInv_consVisited pp hinv
            have hCimp : ∀ p ∈ fd.import_paths, C p := fun p hp =>
              hC p (importStringsProp_intro hread hparse hp)
            obtain ⟨hna2, hok2⟩ := hPIc fd.import_paths
              { st with visited := pp :: st.visited } S hinv1 hCimp
            split at h
            · rename_i e hpi
              subst h
              refine ⟨?_, fun st' h' => by cases h'⟩
              intro hcontra
              injection hcontra with h2
              subst h2
              exact hna2 hpi
            · rename_i st2 hpi
              obtain ⟨hinv2, hvis2, hfresh2⟩ := hok2 st2 hpi
              have hppfresh : pp ∉ pKeys st2 := by
                intro hk
                rcases hfresh2 pp hk with hk1 | hk1
                · exact hv (hinv.keysVisited pp hk1)
                · exact hk1 (List.mem_cons_self pp st.visited)
              have hanyf : st2.parsed.any (fun e => e.1 == pp) = false :=
                parsed_any_eq_false st2 pp hppfresh
              rw [if_neg (by simp [hanyf])] at h
              subst h
              refine ⟨by simp, ?_⟩
              intro st' h'
              injection h' with h2
              subst h2
              have hppvis : pp ∈ st2.visited :=
                hvis2 pp (List.mem_cons_self pp st.visited)
              have hSpp : ¬ S pp := fun hs2 => hv (hinv.sVisited pp hs2)
              refine ⟨WInv_insert fd inp hinv2 hppfresh hppvis hCpp hSpp, ?_, ?_⟩
              · intro v hv2
                exact hvis2 v (List.mem_cons_of_mem pp hv2)
              · intro k hk
                have hk' : k ∈ pKeys st2 ∨ k = pp := by
                  simpa [pKeys] using hk
                rcases hk' with hk' | rfl
                · rcases hfresh2 k hk' with hk1 | hk1
                  · exact .inl hk1
                  · exact .inr (fun hkv => hk1 (List.mem_cons_of_mem pp hkv))
                · exact .inr hv

/-- The input loop master invariant: processing a sublist of the input files
from an invariant state cannot fire the assertion, and on success the tracked
input set is exactly extended by the canonical paths of the processed
files. -/
theorem processInputFiles_master (fs : FileSys) (incs : List FsPath)
    (files : List FsPath) (fuel : Nat) :
    ∀ (fl : List FsPath) (st : ParserState) (S : String → Prop),
      (∀ f ∈ fl, f ∈ files) →
      st.include_path = incs →
      WInv S (walkProv fs incs files) st →
      (processInputFiles fs fuel fl st ≠ .error .assertionFailed) ∧
      (∀ st', processInputFiles fs fuel fl st = .ok st' →
        WInv (fun q => S q ∨ ∃ f ∈ fl, ∃ rel,
            firstStrip incs f = some rel ∧
            q = relative_path_to_protobuf_path rel)
          (walkProv fs incs files) st') := by
  intro fl
  induction fl with
  | nil =>
    intro st S hsub hinc hinv
    constructor
    · rw [processInputFiles]
      simp
    · intro st' h
      rw [processInputFiles] at h
      injection h with h2
      subst h2
      refine WInv_congr ?_ hinv
      intro q
      constructor
      · intro hq
        exact .inl hq
      · rintro (hq | ⟨f, hf, _⟩)
        · exact hq
        · exact absurd hf (List.not_mem_nil f)
  | cons g rest ih =>
    intro st S hsub hinc hinv
    have hCimp : ∀ p, importStringsProp fs p → walkProv fs incs files p := by
      intro p hp
      unfold walkProv
      exact .inr hp
    have hpf := process_file_master fs (walkProv fs incs files) hCimp fuel
    rw [PFconcl] at hpf
    suffices hs : ∀ r, processInputFiles fs fuel (g :: rest) st = r →
        (r ≠ .error .assertionFailed) ∧
        (∀ st', r = .ok st' →
          WInv (fun q => S q ∨ ∃ f ∈ g :: rest, ∃ rel,
              firstStrip incs f = some rel ∧
              q = relative_path_to_protobuf_path rel)
            (walkProv fs incs files) st') by
      obtain ⟨h1, h2⟩ := hs _ rfl
      exact ⟨h1, h2⟩
    intro r h
    rw [processInputFiles, process_input_file, hinc] at h
    cases hstrip : firstStrip incs g with
    | none =>
      rw [hstrip] at h
      simp only [] at h
      subst h
      exact ⟨by simp, fun st' h' => by cases h'⟩
    | some rel =>
      rw [hstrip] at h
      simp only [] at h
      have hCpp : walkProv fs incs files (relative_path_to_protobuf_path rel) := by
        unfold walkProv canonProp
        exact .inl ⟨g, hsub g (List.mem_cons_self g rest), rel, hstrip, rfl⟩
      obtain ⟨hna, hok⟩ :=
        hpf (relative_path_to_protobuf_path rel) g true st S hinv hCpp
      cases hproc : process_file fs fuel (relative_path_to_protobuf_path rel)
          g true st with
      | error e =>
        rw [hproc] at h
        simp only [] at h
        subst h
        refine ⟨?_, fun st' h' => by cases h'⟩
        intro hcontra
        injection hcontra with h2
        subst h2
        exact hna hproc
      | ok st1 =>
        rw [hproc] at h
        simp only [] at h
        obtain ⟨hinv1, hvis1, hfresh1⟩ := hok st1 hproc
        have hinc1 : st1.include_path = incs := by
          rw [process_file_include_eq fs fuel
            (relative_path_to_protobuf_path rel) g true st st1 hproc]
          exact hinc
        have hsub1 : ∀ f ∈ rest, f ∈ files := fun f hf =>
          hsub f (List.mem_cons_of_mem g hf)
        obtain ⟨hna2, hok2⟩ := ih st1
          (fun q => S q ∨ (true = true ∧ q = relative_path_to_protobuf_path rel))
          hsub1 hinc1 hinv1
        constructor
        · intro hcontra
          exact hna2 (h.trans hcontra)
        · intro st' h'
          have hinv2 := hok2 st' (h.trans h')
          refine WInv_congr ?_ hinv2
          intro q
          constructor
          · rintro ((hq | ⟨_, hq⟩) | ⟨f, hf, rel', hstrip', hq'⟩)
            · exact .inl hq
            · exact .inr ⟨g, List.mem_cons_self g rest, rel, hstrip, hq⟩
            · exact .inr ⟨f, List.mem_cons_of_mem g hf, rel', hstrip', hq'⟩
          · rintro (hq | ⟨f, hf, rel', hstrip', hq'⟩)
            · exact .inl (.inl hq)
            · rcases List.mem_cons.mp hf with rfl | hf'
              · rw [hstrip] at hstrip'
                injection hstrip' with h3
                subst h3
                exact .inl (.inr ⟨rfl, hq'⟩)
              · exact .inr ⟨f, hf', rel', hstrip', hq'⟩

/-- The walker invariant holds of the initial state of a run. -/
theorem WInv_init (incs : List FsPath) (C : String → Prop) :
    WInv (fun _ => False) C ⟨incs, [], []⟩ := by
  refine ⟨?_, ?_, ?_, ?_, ?_, ?_⟩ <;> simp [pKeys]

/-- Pointwise equal functions give equal maps. -/
theorem map_eq_of_forall_eq {α β : Type} (f g : α → β) :
    ∀ l : List α, (∀ a ∈ l, f a = g a) → l.map f = l.map g := by
  intro l
  induction l with
  | nil =>
    intro _
    rfl
  | cons x xs ih =>
    intro hall
    simp only [List.map_cons]
    rw [hall x (List.mem_cons_self x xs),
      ih (fun a ha => hall a (List.mem_cons_of_mem x ha))]

/-- C10: the Rust `assert!(prev.is_none())` guarding the insertion into the
parsed map is unreachable: every run of `parse_with_dependencies` either
succeeds or fails with an outcome other than the assertion, because a
canonical path enters the visited set before it is processed and the parsed
map's keys always form a subset of the visited set with no duplicates. -/
theorem parse_with_dependencies_no_assert (fs : FileSys) (fuel : Nat)
    (incs files : List FsPath) :
    (∃ l, parse_with_dependencies fs fuel incs files = .ok l) ∨
    (∃ e, parse_with_dependencies fs fuel incs files = .error e ∧
      e ≠ WalkError.assertionFailed) := by
  obtain ⟨hna, _⟩ := processInputFiles_master fs incs files fuel files
    ⟨incs, [], []⟩ (fun _ => False) (fun f hf => hf) rfl
    (WInv_init incs (walkProv fs incs files))
  cases hres : processInputFiles fs fuel files ⟨incs, [], []⟩ with
  | error e =>
    refine .inr ⟨e, ?_, ?_⟩
    · rw [parse_with_dependencies, hres]
    · intro hcontra
      subst hcontra
      exact hna hres
  | ok st =>
    exact .inl ⟨st.parsed.map Prod.snd, by rw [parse_with_dependencies, hres]⟩

/-- C6: in a successful run of `parse_with_dependencies`, a returned
descriptor carries `input = true` exactly when its protobuf path is the
canonical path of one of the explicitly supplied input files (so a file first
reached through an import and later supplied as an input ends with its flag
flipped to true). -/
theorem parse_with_dependencies_input_flag (fs : FileSys) (fuel : Nat)
    (incs files : List FsPath) (l : List FileDescriptorWithContext)
    (h : parse_with_dependencies fs fuel incs files = .ok l) :
    ∀ d ∈ l, (d.input = true ↔ canonProp incs files d.protobuf_path) := by
  rw [parse_with_dependencies] at h
  cases hres : processInputFiles fs fuel files ⟨incs, [], []⟩ with
  | error e =>
    rw [hres] at h
    cases h
  | ok st =>
    rw [hres] at h
    have h2 : (Except.ok (st.parsed.map Prod.snd) :
        WRes (List FileDescriptorWithContext)) = .ok l := h
    injection h2 with h3
    subst h3
    obtain ⟨_, hok⟩ := processInputFiles_master fs incs files fuel files
      ⟨incs, [], []⟩ (fun _ => False) (fun f hf => hf) rfl
      (WInv_init incs (walkProv fs incs files))
    have hinvf := hok st hres
    intro d hd
    obtain ⟨e, he, hde⟩ := List.mem_map.mp hd
    have hfl := hinvf.flags e he
    have hkm := hinvf.keyMatch e he
    subst hde
    rw [hkm]
    refine hfl.trans ?_
    constructor
    · rintro (hfalse | hq)
      · exact hfalse.elim
      · unfold canonProp
        exact hq
    · intro hq
      unfold canonProp at hq
      exact .inr hq

/-- C9: a successful run of `parse_with_dependencies` returns descriptors
with pairwise distinct protobuf paths, and every such path is either the
forward-slash join of an include-relative input path or occurs verbatim as
an import string of a parsed file. -/
theorem parse_with_dependencies_paths (fs : FileSys) (fuel : Nat)
    (incs files : List FsPath) (l : List FileDescriptorWithContext)
    (h : parse_with_dependencies fs fuel incs files = .ok l) :
    (l.map (fun d => d.protobuf_path)).Nodup ∧
    ∀ d ∈ l, canonProp incs files d.protobuf_path ∨
      importStringsProp fs d.protobuf_path := by
  rw [parse_with_dependencies] at h
  cases hres : processInputFiles fs fuel files ⟨incs, [], []⟩ with
  | error e =>
    rw [hres] at h
    cases h
  | ok st =>
    rw [hres] at h
    have h2 : (Except.ok (st.parsed.map Prod.snd) :
        WRes (List FileDescriptorWithContext)) = .ok l := h
    injection h2 with h3
    subst h3
    obtain ⟨_, hok⟩ := processInputFiles_master fs incs files fuel files
      ⟨incs, [], []⟩ (fun _ => False) (fun f hf => hf) rfl
      (WInv_init incs (walkProv fs incs files))
    have hinvf := hok st hres
    constructor
    · have hmap : (st.parsed.map Prod.snd).map (fun d => d.protobuf_path)
          = pKeys st := by
        rw [List.map_map]
        unfold pKeys
        exact map_eq_of_forall_eq _ _ st.parsed
          (fun e he => hinvf.keyMatch e he)
      rw [hmap]
      exact hinvf.keysNodup
    · intro d hd
      obtain ⟨e, he, hde⟩ := List.mem_map.mp hd
      have hprov := hinvf.prov e he
      have hkm := hinvf.keyMatch e he
      subst hde
      rw [hkm]
      unfold walkProv at hprov
      rcases hprov with hp | hp
      · exact .inl (by unfold canonProp; unfold canonProp at hp; exact hp)
      · exact .inr hp

/-- Witness for C6: a run with one input file importing another returns the
supplied input with flag `true` and the imported file with flag `false`,
exactly matching the canonical paths of the supplied inputs. -/
theorem parse_with_dependencies_input_flag_witness :
    parse_with_dependencies
        [(["a.proto"], "import \"b.proto\";"), (["b.proto"], "")] 2 [[]]
        [["a.proto"]] =
      .ok [⟨"b.proto", FileDescriptor.default, false⟩,
        ⟨"a.proto", { FileDescriptor.default with import_paths := ["b.proto"] },
          true⟩] ∧
    ∀ d ∈ ([⟨"b.proto", FileDescriptor.default, false⟩,
        ⟨"a.proto", { FileDescriptor.default with import_paths := ["b.proto"] },
          true⟩] : List FileDescriptorWithContext),
      (d.input = true ↔ canonProp [[]] [["a.proto"]] d.protobuf_path) := by
  have hparseA : FileDescriptor.parse "import \"b.proto\";" =
      .ok { FileDescriptor.default with import_paths := ["b.proto"] } := rfl
  have hparseB : FileDescriptor.parse "" = .ok FileDescriptor.default := rfl
  have hrelA : String.intercalate "/" ["a.proto"] = "a.proto" := rfl
  have himpA : ({ FileDescriptor.default with import_paths := ["b.proto"] }
      : FileDescriptor).import_paths = ["b.proto"] := rfl
  have himpB : FileDescriptor.default.import_paths = ([] : List String) := rfl
  have hcomp : protobufPathComponents "b.proto" = ["b.proto"] := rfl
  have hrun : parse_with_dependencies
      [(["a.proto"], "import \"b.proto\";"), (["b.proto"], "")] 2 [[]]
      [["a.proto"]] =
      .ok [⟨"b.proto", FileDescriptor.default, false⟩,
        ⟨"a.proto", { FileDescriptor.default with import_paths := ["b.proto"] },
          true⟩] := by
    simp [parse_with_dependencies, processInputFiles, process_input_file,
      process_file, processImports, resolve_protobuf_path, firstStrip,
      relative_path_to_protobuf_path, FileSys.read, List.lookup,
      hparseA, hparseB, hrelA, himpA, himpB, hcomp]
  exact ⟨hrun,
    parse_with_dependencies_input_flag _ 2 [[]] [["a.proto"]] _ hrun⟩

/-- Witness for C9: a run with one input file importing another returns two
descriptors with distinct protobuf paths, the input's path canonical and the
the import's path an import string of a parsed file. -/
theorem parse_with_dependencies_paths_witness :
    parse_with_dependencies
        [(["main.proto"], "import \"dep.proto\";"), (["dep.proto"], "")] 2 [[]]
        [["main.proto"]] =
      .ok [⟨"dep.proto", FileDescriptor.default, false⟩,
        ⟨"main.proto",
          { FileDescriptor.default with import_paths := ["dep.proto"] },
          true⟩] ∧
    (((([⟨"dep.proto", FileDescriptor.default, false⟩,
        ⟨"main.proto",
          { FileDescriptor.default with import_paths := ["dep.proto"] },
          true⟩] : List FileDescriptorWithContext).map
        (fun d => d.protobuf_path)).Nodup) ∧
      ∀ d ∈ ([⟨"dep.proto", FileDescriptor.default, false⟩,
        ⟨"main.proto",
          { FileDescriptor.default with import_paths := ["dep.proto"] },
          true⟩] : List FileDescriptorWithContext),
        canonProp [[]] [["main.proto"]] d.protobuf_path ∨
          importStringsProp
            [(["main.proto"], "import \"dep.proto\";"), (["dep.proto"], "")]
            d.protobuf_path) := by
  have hparseA : FileDescriptor.parse "import \"dep.proto\";" =
      .ok { FileDescriptor.default with import_paths := ["dep.proto"] } := rfl
  have hparseB : FileDescriptor.parse "" = .ok FileDescriptor.default := rfl
  have hrelA : String.intercalate "/" ["main.proto"] = "main.proto" := rfl
  have himpA : ({ FileDescriptor.default with import_paths := ["dep.proto"] }
      : FileDescriptor).import_paths = ["dep.proto"] := rfl
  have himpB : FileDescriptor.default.import_paths = ([] : List String) := rfl
  have hcomp : protobufPathComponents "dep.proto" = ["dep.proto"] := rfl
  have hrun : parse_with_dependencies
      [(["main.proto"], "import \"dep.proto\";"), (["dep.proto"], "")] 2 [[]]
      [["main.proto"]] =
      .ok [⟨"dep.proto", FileDescriptor.default, false⟩,
        ⟨"main.proto",
          { FileDescriptor.default with import_paths := ["dep.proto"] },
          true⟩] := by
    simp [parse_with_dependencies, processInputFiles, process_input_file,
      process_file, processImports, resolve_protobuf_path, firstStrip,
      relative_path_to_protobuf_path, FileSys.read, List.lookup,
      hparseA, hparseB, hrelA, himpA, himpB, hcomp]
  exact ⟨hrun,
    parse_with_dependencies_paths _ 2 [[]] [["main.proto"]] _ hrun⟩

end Protobuf
